import Mathlib

/-!
# Fat-tree topology generator (`topogen.cpp`)

A shallow embedding of the class `topologie` and of `main`, followed by the
properties of the generated wiring.

* The output stream `file` is a list of lines.  A line keeps the operands of
  the `<<` chain that wrote it; `Line.header` and `Line.port` are rendered to
  the exact bytes by `renderHeader` and `PortLine.render`.
* C++ `/` and `%` are `cdiv` and `cmod` (truncating).  For a legal `k` the only
  quantity of the program that can leave the range of a 32-bit `int` is the
  host counter `idx`, which counts up to `(k/2)^2*k`.
* The passes are given twice.  `printNode32` and `printEdge32` keep `idx` as the
  32-bit `int` of the source (`wrap32` after every `idx++`); the records of
  that run are `allRecords32`, and every property that depends on the value
  of a host index is stated on them.  `printNode` and `printEdge` keep the
  arithmetic value of the counter, without a range; they are used for the
  properties that do not depend on the host indices, and for measuring the
  counter against `INT_MAX` (`nodeIdxTrace`, `edgeIdxTrace`).  The two runs
  are related by `allRecords32_eq`: the 32-bit run writes the records of the
  other run with every host index reduced to 32 bits, and for `k ≤ 2048` the
  two runs write the same records (`allRecords32_small`).
* A `for` loop is `forLoop`; the running counters `idx` and `idy` are threaded
  through the loop state together with the stream.
-/

namespace FatTree

/-! ## Machine arithmetic -/

/-- C++ `a / b` on `int`: the quotient is truncated toward zero. -/
def cdiv (a b : Int) : Int := Int.tdiv a b

/-- C++ `a % b` on `int`: the remainder takes the sign of `a`. -/
def cmod (a b : Int) : Int := Int.tmod a b

/-! ## Lines of the output stream -/

/-- Identity strings written between double quotes. -/
inductive Ident
  | Node (idx : Int)
  | Edge (pod slot : Int)
  | Aggr (pod slot : Int)
  | Core (k grp idx : Int)
  deriving DecidableEq, Repr

/-- Text of an identity: `Node(idx)`, `Edge(pod slot 1)`, `Aggr(pod slot 1)`,
`Core(k group index)`. -/
def Ident.render : Ident → String
  | .Node idx => "Node(" ++ toString idx ++ ")"
  | .Edge pod slot => "Edge(" ++ toString pod ++ " " ++ toString slot ++ " 1)"
  | .Aggr pod slot => "Aggr(" ++ toString pod ++ " " ++ toString slot ++ " 1)"
  | .Core k grp idx =>
      "Core(" ++ toString k ++ " " ++ toString grp ++ " " ++ toString idx ++ ")"

/-- Entity class of an identity. -/
inductive Kind
  | node | edge | aggr | core
  deriving DecidableEq, Repr

/-- Class named by an identity string. -/
def Ident.kind : Ident → Kind
  | .Node _ => .node
  | .Edge _ _ => .edge
  | .Aggr _ _ => .aggr
  | .Core _ _ _ => .core

/-- First word of a record header line. -/
inductive Dev
  | Hca | Switch
  deriving DecidableEq, Repr

/-- A port line `[loc]<gap>"peer"[peerPort]`; `gap` is the blank text the source
writes between the closing bracket and the opening quote. -/
structure PortLine where
  loc : Int
  gap : String
  peer : Ident
  peerPort : Int
  deriving DecidableEq, Repr

/-- Bytes of a port line (without the end of line). -/
def PortLine.render (p : PortLine) : String :=
  "[" ++ toString p.loc ++ "]" ++ p.gap ++ "\"" ++ p.peer.render ++ "\"[" ++
    toString p.peerPort ++ "]"

/-- One line written to `file` (each ends with `endl`).  `commentPow s b e f`
is the text `s` followed by the `double` value `pow(b, e) * f`, whose stream
formatting is not modelled. -/
inductive Line
  | comment (s : String)
  | commentInt (s : String) (v : Int)
  | commentPow (s : String) (base expo factor : Int)
  | header (dev : Dev) (ports : Int) (id : Ident)
  | port (p : PortLine)
  deriving DecidableEq, Repr

/-- Bytes of a record header line: `Hca\t<ports>\t"<id>"` or
`Switch\t\t<ports>\t"<id>"`. -/
def renderHeader (dev : Dev) (ports : Int) (id : Ident) : String :=
  match dev with
  | .Hca => "Hca\t" ++ toString ports ++ "\t\"" ++ id.render ++ "\""
  | .Switch => "Switch\t\t" ++ toString ports ++ "\t\"" ++ id.render ++ "\""

/-! ## Loops -/

/-- Loop `for (int i = lo; i < hi; i++)` whose body maps the state `s` to
`body i s`. -/
def forLoop {σ : Type} (lo hi : Int) (body : Int → σ → σ) (s : σ) : σ :=
  (List.range (hi - lo).toNat).foldl (fun s (n : Nat) => body (lo + (n : Int)) s) s

/-- Loop `for (int i = lo; i <= hi; i++)` whose body maps the state `s` to
`body i s`. -/
def forLoopLe {σ : Type} (lo hi : Int) (body : Int → σ → σ) (s : σ) : σ :=
  forLoop lo (hi + 1) body s

/-! ## The class `topologie` -/

/-- Fields of the class; `file` holds the lines written so far. -/
structure topologie where
  file : List Line
  k : Int
  num_pod : Int
  num_edge : Int
  num_agre : Int
  num_host : Int
  num_port : Int

/-- Constructor `topologie(int k)`, called as `new topologie(k)`: derives the
parameters and writes the header block (five lines and the blank line of the
second `endl`). -/
def topologie.new (k : Int) : topologie :=
  { k := k
    num_pod := k
    num_edge := cdiv k 2
    num_agre := cdiv k 2
    num_host := cdiv k 2
    num_port := k
    file :=
      [ Line.comment "#fat tree topology file.",
        Line.commentInt "#Value of k = " k,
        Line.commentPow "#Total number of hosts = " (cdiv k 2) 2 k,
        Line.commentInt "#Number of hosts under each switch = " (cdiv k 2),
        Line.comment "####################################################",
        Line.comment "" ] }

/-- Body of the innermost loop of `printNode`; the state is `(idx, file)`.  The
counter holds the arithmetic value of `idx`, without the range of `int`; the
body with the 32-bit counter is `nodeStep32`. -/
def nodeStep (i j t : Int) (s : Int × List Line) : Int × List Line :=
  (s.1 + 1,
   s.2 ++ [Line.header Dev.Hca 1 (Ident.Node s.1),
           Line.port ⟨1, "  ", Ident.Edge i j, (t + 1) * 2⟩])

/-- Method `printNode`, with the arithmetic value of `idx` (see `printNode32` for
the 32-bit counter). -/
def topologie.printNode (self : topologie) : topologie :=
  let r : Int × List Line :=
    forLoop 0 self.num_pod (fun i s =>
      forLoop 0 self.num_edge (fun j s =>
        forLoop 0 self.num_host (fun t s => nodeStep i j t s) s) s)
      (0, self.file)
  { self with file := r.2 }

/-- Body of the port loop of `printEdge`; the state is `((idx, idy), file)`.  The
counter `idx` holds its arithmetic value, without the range of `int`; the body
with the 32-bit counter is `edgeStep32`. -/
def edgeStep (i j t : Int) (s : (Int × Int) × List Line) : (Int × Int) × List Line :=
  if cmod t 2 = 0 then
    ((s.1.1, s.1.2 + 1),
     s.2 ++ [Line.port ⟨t + 1, " ", Ident.Aggr i s.1.2, (j + 1) * 2⟩])
  else
    ((s.1.1 + 1, s.1.2),
     s.2 ++ [Line.port ⟨t + 1, " ", Ident.Node s.1.1, 1⟩])

/-- Body of the edge-switch loop of `printEdge`; the state is `(idx, file)`. -/
def edgeSwitch (self : topologie) (i j : Int) (s : Int × List Line) : Int × List Line :=
  let file := s.2 ++ [Line.header Dev.Switch self.num_port (Ident.Edge i j)]
  let idy := cdiv self.num_pod 2
  let r := forLoop 0 self.num_port (fun t st => edgeStep i j t st) ((s.1, idy), file)
  (r.1.1, r.2)

/-- Method `printEdge`, with the arithmetic value of `idx` (see `printEdge32` for
the 32-bit counter). -/
def topologie.printEdge (self : topologie) : topologie :=
  let r : Int × List Line :=
    forLoop 0 self.num_pod (fun i s =>
      forLoop 0 self.num_edge (fun j s => edgeSwitch self i j s) s)
      (0, self.file)
  { self with file := r.2 }

/-- Body of the port loop of `printAgre`. -/
def agreStep (self : topologie) (i j m : Int) (file : List Line) : List Line :=
  if cmod m 2 = 1 then
    file ++ [Line.port ⟨m, "  ", Ident.Core self.k j (cdiv m 2 + 1), i⟩]
  else
    file ++ [Line.port ⟨m, "  ", Ident.Edge (i - 1) (cdiv m 2 - 1), j * 2 - 1⟩]

/-- Method `printAgre`. -/
def topologie.printAgre (self : topologie) : topologie :=
  let file :=
    forLoopLe 1 self.k (fun i file =>
      forLoopLe 1 self.num_agre (fun j file =>
        forLoopLe 1 self.k (fun m file => agreStep self i j m file)
          (file ++ [Line.header Dev.Switch self.num_port
            (Ident.Aggr (i - 1) (j + cdiv self.k 2 - 1))])) file)
      self.file
  { self with file := file }

/-- Body of the port loop of `printCore`. -/
def coreStep (self : topologie) (i j m : Int) (file : List Line) : List Line :=
  file ++ [Line.port ⟨m, "  ", Ident.Aggr (m - 1) (cdiv self.k 2 + i - 1), 2 * j - 1⟩]

/-- Method `printCore`. -/
def topologie.printCore (self : topologie) : topologie :=
  let file :=
    forLoopLe 1 (cdiv self.k 2) (fun i file =>
      forLoopLe 1 (cdiv self.k 2) (fun j file =>
        forLoopLe 1 self.k (fun m file => coreStep self i j m file)
          (file ++ [Line.header Dev.Switch self.num_port (Ident.Core self.k i j)])) file)
      self.file
  { self with file := file }

/-- Method `closeFile`: the content of the file is left as written. -/
def topologie.closeFile (self : topologie) : topologie := self

/-- What a run of the program leaves behind: the exit code, the lines written
to `cout`, and the content of `resultat.topo` (`none` when it was never
opened). -/
structure Outcome where
  code : Int
  cout : List String
  artifact : Option (List Line)
  deriving DecidableEq

/-- Function `main`.  `argv` includes the program name, `argc` is its length;
`atoi` is the C library function. -/
def main (atoi : String → Int) (argv : List String) : Outcome :=
  if 1 < argv.length then
    let k := atoi (argv.getD 1 "")
    if k < 4 ∨ cmod k 2 = 1 then
      ⟨1, ["Wrong k"], none⟩
    else
      let topo := topologie.new k
      let topo := topo.printNode
      let topo := topo.printEdge
      let topo := topo.printAgre
      let topo := topo.printCore
      let topo := topo.closeFile
      ⟨0, [], some topo.file⟩
  else
    ⟨1, ["Not enough params"], none⟩

/-! ## Reading the output as records -/

/-- A record of the output: a header line and the port lines that follow it. -/
structure Record where
  dev : Dev
  ports : Int
  id : Ident
  lines : List PortLine
  deriving DecidableEq, Repr

/-- The port lines at the front of a list of lines. -/
def portsOf : List Line → List PortLine
  | Line.port p :: rest => p :: portsOf rest
  | _ => []

/-- Splits the output into records: every header line starts a record, which
owns the port lines up to the next line that is not a port line. -/
def records : List Line → List Record
  | [] => []
  | Line.header d n id :: rest => ⟨d, n, id, portsOf rest⟩ :: records rest
  | _ :: rest => records rest

/-- Lines a method appends to the stream of `T`. -/
def emitted (m : topologie → topologie) (T : topologie) : List Line :=
  (m T).file.drop T.file.length

/-- Object on which `main` calls `printNode`. -/
def topoNode (k : Int) : topologie := topologie.new k
/-- Object on which `main` calls `printEdge`. -/
def topoEdge (k : Int) : topologie := (topoNode k).printNode
/-- Object on which `main` calls `printAgre`. -/
def topoAgre (k : Int) : topologie := (topoEdge k).printEdge
/-- Object on which `main` calls `printCore`. -/
def topoCore (k : Int) : topologie := (topoAgre k).printAgre

/-- Records emitted by `printNode` in a run with parameter `k`. -/
def recordsNode (k : Int) : List Record := records (emitted topologie.printNode (topoNode k))
/-- Records emitted by `printEdge` in a run with parameter `k`. -/
def recordsEdge (k : Int) : List Record := records (emitted topologie.printEdge (topoEdge k))
/-- Records emitted by `printAgre` in a run with parameter `k`. -/
def recordsAgre (k : Int) : List Record := records (emitted topologie.printAgre (topoAgre k))
/-- Records emitted by `printCore` in a run with parameter `k`. -/
def recordsCore (k : Int) : List Record := records (emitted topologie.printCore (topoCore k))

/-- All records of a run, in emission order. -/
def allRecords (k : Int) : List Record :=
  recordsNode k ++ recordsEdge k ++ recordsAgre k ++ recordsCore k

/-! ## Closed forms of the four passes -/

/-- Lines of a record: its header line, then its port lines. -/
def Record.block (r : Record) : List Line :=
  Line.header r.dev r.ports r.id :: r.lines.map Line.port

/-- Host record `Node(n)` with uplink `Edge(i j 1)` port `(t+1)*2`. -/
def hostRec (n i j t : Int) : Record :=
  ⟨Dev.Hca, 1, Ident.Node n, [⟨1, "  ", Ident.Edge i j, (t + 1) * 2⟩]⟩

/-- Host records for `np` pods, `ne` edge slots per pod and `nh` hosts per
edge switch, in emission order. -/
def nodeLayout (np ne nh : Nat) : List Record :=
  (List.range np).flatMap fun (i : Nat) => (List.range ne).flatMap fun (j : Nat) =>
    (List.range nh).map fun (t : Nat) =>
      hostRec ((i : Int) * ((ne : Int) * (nh : Int)) + (j : Int) * (nh : Int) + (t : Int)) i j t

/-- Port line written by `printEdge` at loop index `t` of a switch whose port
loop started with host counter `c` and aggregation counter `idy`. -/
def edgePort (i j c idy : Int) (t : Nat) : PortLine :=
  if t % 2 = 0 then
    ⟨(t : Int) + 1, " ", Ident.Aggr i (idy + ((t / 2 : Nat) : Int)), (j + 1) * 2⟩
  else
    ⟨(t : Int) + 1, " ", Ident.Node (c + ((t / 2 : Nat) : Int)), 1⟩

/-- Edge record of pod `i`, slot `j` with `n` port lines; `pt` is the declared
port count. -/
def edgeRec (pt idy : Int) (n : Nat) (c i j : Int) : Record :=
  ⟨Dev.Switch, pt, Ident.Edge i j, (List.range n).map (edgePort i j c idy)⟩

/-- Edge records for `np` pods and `ne` edge slots per pod, in emission order. -/
def edgeLayout (pt idy : Int) (n np ne : Nat) : List Record :=
  (List.range np).flatMap fun (i : Nat) => (List.range ne).map fun (j : Nat) =>
    edgeRec pt idy n
      ((i : Int) * ((ne : Int) * ((n / 2 : Nat) : Int)) + (j : Int) * ((n / 2 : Nat) : Int)) i j

/-- Port line written by `printAgre` for loop indices `i`, `j`, `m`. -/
def agrePort (k i j m : Int) : PortLine :=
  if cmod m 2 = 1 then ⟨m, "  ", Ident.Core k j (cdiv m 2 + 1), i⟩
  else ⟨m, "  ", Ident.Edge (i - 1) (cdiv m 2 - 1), j * 2 - 1⟩

/-- Aggregation record written for loop indices `i`, `j`. -/
def agreRec (T : topologie) (i j : Int) : Record :=
  ⟨Dev.Switch, T.num_port, Ident.Aggr (i - 1) (j + cdiv T.k 2 - 1),
   (List.range T.k.toNat).map fun (m : Nat) => agrePort T.k i j (1 + (m : Int))⟩

/-- Aggregation records in emission order. -/
def agreLayout (T : topologie) : List Record :=
  (List.range T.k.toNat).flatMap fun (i : Nat) =>
    (List.range T.num_agre.toNat).map fun (j : Nat) => agreRec T (1 + (i : Int)) (1 + (j : Int))

/-- Port line written by `printCore` for loop indices `i`, `j`, `m`. -/
def corePort (k i j m : Int) : PortLine :=
  ⟨m, "  ", Ident.Aggr (m - 1) (cdiv k 2 + i - 1), 2 * j - 1⟩

/-- Core record written for loop indices `i`, `j`. -/
def coreRec (T : topologie) (i j : Int) : Record :=
  ⟨Dev.Switch, T.num_port, Ident.Core T.k i j,
   (List.range T.k.toNat).map fun (m : Nat) => corePort T.k i j (1 + (m : Int))⟩

/-- Core records in emission order. -/
def coreLayout (T : topologie) : List Record :=
  (List.range (cdiv T.k 2).toNat).flatMap fun (i : Nat) =>
    (List.range (cdiv T.k 2).toNat).map fun (j : Nat) => coreRec T (1 + (i : Int)) (1 + (j : Int))

/-! ## Observations on lines -/

/-- Host index named by a port line, if its peer is a host. -/
def PortLine.hostIdx (p : PortLine) : Option Int :=
  match p.peer with
  | Ident.Node n => some n
  | _ => none

/-- Pod and slot named by a port line, if its peer is an aggregation switch. -/
def PortLine.aggrTarget (p : PortLine) : Option (Int × Int) :=
  match p.peer with
  | Ident.Aggr pod slot => some (pod, slot)
  | _ => none

/-- The layout the host record uses for its port line: local port in brackets,
two spaces, quoted peer identity, peer port in brackets. -/
def twoSpaceLayout (p : PortLine) : String :=
  "[" ++ toString p.loc ++ "]  \"" ++ p.peer.render ++ "\"[" ++ toString p.peerPort ++ "]"

/-- Record of `Edge(0 0 1)` in the output for `k = 4`. -/
def edge00 : Record :=
  ⟨Dev.Switch, 4, Ident.Edge 0 0,
    [⟨1, " ", Ident.Aggr 0 2, 2⟩, ⟨2, " ", Ident.Node 0, 1⟩,
     ⟨3, " ", Ident.Aggr 0 3, 2⟩, ⟨4, " ", Ident.Node 1, 1⟩]⟩

/-- Local port numbers, in port order, of the port lines of a record whose peer
is of kind `κ`. -/
def Record.portsTo (r : Record) (κ : Kind) : List Int :=
  (r.lines.filter (fun p => decide (p.peer.kind = κ))).map PortLine.loc

/-- Group and index named by a port line, if its peer is a core switch. -/
def PortLine.coreTarget (p : PortLine) : Option (Int × Int × Int) :=
  match p.peer with
  | Ident.Core k grp idx => some (k, grp, idx)
  | _ => none

/-- Record of `Aggr(3 3 1)` in the output for `k = 4`. -/
def aggr33 : Record :=
  ⟨Dev.Switch, 4, Ident.Aggr 3 3,
    [⟨1, "  ", Ident.Core 4 2 1, 4⟩, ⟨2, "  ", Ident.Edge 3 0, 3⟩,
     ⟨3, "  ", Ident.Core 4 2 2, 4⟩, ⟨4, "  ", Ident.Edge 3 1, 3⟩]⟩

/-- Record of `Core(4 2 1)` in the output for `k = 4`. -/
def core21 : Record :=
  ⟨Dev.Switch, 4, Ident.Core 4 2 1,
    [⟨1, "  ", Ident.Aggr 0 3, 1⟩, ⟨2, "  ", Ident.Aggr 1 3, 1⟩,
     ⟨3, "  ", Ident.Aggr 2 3, 1⟩, ⟨4, "  ", Ident.Aggr 3 3, 1⟩]⟩

/-! ## The host counter as a 32-bit `int` -/

/-- Largest value of a 32-bit signed `int`. -/
def INT_MAX : Int := 2147483647

/-- Statement `idx++` on the state `(idx, values)`, where `values` lists every
value `idx` has held so far. -/
def idxStep (s : Int × List Int) : Int × List Int :=
  (s.1 + 1, s.2 ++ [s.1 + 1])

/-- Values held by `idx` during `printNode`, in order: the initial 0 and the
value after each `idx++` (the loops of `printNode` without the stream). -/
def topologie.nodeIdxTrace (self : topologie) : List Int :=
  (forLoop 0 self.num_pod (fun _ s =>
    forLoop 0 self.num_edge (fun _ s =>
      forLoop 0 self.num_host (fun _ s => idxStep s) s) s)
    (0, [0])).2

/-- Values held by `idx` during `printEdge`, in order: the initial 0 and the
value after each `idx++`, which the port loop executes when `t % 2 == 0` is
false (the loops of `printEdge` without the stream and without `idy`). -/
def topologie.edgeIdxTrace (self : topologie) : List Int :=
  (forLoop 0 self.num_pod (fun _ s =>
    forLoop 0 self.num_edge (fun _ s =>
      forLoop 0 self.num_port (fun t s => if cmod t 2 = 0 then s else idxStep s) s) s)
    (0, [0])).2

/-! ## The passes with the 32-bit host counter -/

/-- Value a 32-bit signed `int` holds for the arithmetic result `x`: `x` reduced
modulo `2^32` into `[-2^31, 2^31)` (two's complement).  Inside the range it is
`x`; outside, the C++ standard leaves the result undefined and the usual builds
wrap in this way. -/
def wrap32 (x : Int) : Int := (x + 2147483648) % 4294967296 - 2147483648

/-- Body of the innermost loop of `printNode` with `int idx` as a 32-bit
counter; the state is `(idx, file)`. -/
def nodeStep32 (i j t : Int) (s : Int × List Line) : Int × List Line :=
  (wrap32 (s.1 + 1),
   s.2 ++ [Line.header Dev.Hca 1 (Ident.Node s.1),
           Line.port ⟨1, "  ", Ident.Edge i j, (t + 1) * 2⟩])

/-- Method `printNode` with `int idx` as a 32-bit counter. -/
def topologie.printNode32 (self : topologie) : topologie :=
  let r : Int × List Line :=
    forLoop 0 self.num_pod (fun i s =>
      forLoop 0 self.num_edge (fun j s =>
        forLoop 0 self.num_host (fun t s => nodeStep32 i j t s) s) s)
      (0, self.file)
  { self with file := r.2 }

/-- Body of the port loop of `printEdge` with `int idx` as a 32-bit counter; the
state is `((idx, idy), file)`.  The counter `idy` is restarted for every switch
and stays below `num_pod / 2 + num_port`, so it is kept exact. -/
def edgeStep32 (i j t : Int) (s : (Int × Int) × List Line) : (Int × Int) × List Line :=
  if cmod t 2 = 0 then
    ((s.1.1, s.1.2 + 1),
     s.2 ++ [Line.port ⟨t + 1, " ", Ident.Aggr i s.1.2, (j + 1) * 2⟩])
  else
    ((wrap32 (s.1.1 + 1), s.1.2),
     s.2 ++ [Line.port ⟨t + 1, " ", Ident.Node s.1.1, 1⟩])

/-- Body of the edge-switch loop of `printEdge` with the 32-bit counter. -/
def edgeSwitch32 (self : topologie) (i j : Int) (s : Int × List Line) : Int × List Line :=
  let file := s.2 ++ [Line.header Dev.Switch self.num_port (Ident.Edge i j)]
  let idy := cdiv self.num_pod 2
  let r := forLoop 0 self.num_port (fun t st => edgeStep32 i j t st) ((s.1, idy), file)
  (r.1.1, r.2)

/-- Method `printEdge` with `int idx` as a 32-bit counter. -/
def topologie.printEdge32 (self : topologie) : topologie :=
  let r : Int × List Line :=
    forLoop 0 self.num_pod (fun i s =>
      forLoop 0 self.num_edge (fun j s => edgeSwitch32 self i j s) s)
      (0, self.file)
  { self with file := r.2 }

/-- Object on which `printEdge` is called, 32-bit counter. -/
def topoEdge32 (k : Int) : topologie := (topologie.new k).printNode32
/-- Object on which `printAgre` is called, 32-bit counter. -/
def topoAgre32 (k : Int) : topologie := (topoEdge32 k).printEdge32
/-- Object on which `printCore` is called, 32-bit counter. -/
def topoCore32 (k : Int) : topologie := (topoAgre32 k).printAgre

/-- Records emitted by `printNode`, 32-bit counter. -/
def recordsNode32 (k : Int) : List Record :=
  records (emitted topologie.printNode32 (topologie.new k))
/-- Records emitted by `printEdge`, 32-bit counter. -/
def recordsEdge32 (k : Int) : List Record :=
  records (emitted topologie.printEdge32 (topoEdge32 k))
/-- Records emitted by `printAgre` in the run with the 32-bit counter. -/
def recordsAgre32 (k : Int) : List Record :=
  records (emitted topologie.printAgre (topoAgre32 k))
/-- Records emitted by `printCore` in the run with the 32-bit counter. -/
def recordsCore32 (k : Int) : List Record :=
  records (emitted topologie.printCore (topoCore32 k))

/-- All records of the run with the 32-bit counter, in emission order. -/
def allRecords32 (k : Int) : List Record :=
  recordsNode32 k ++ recordsEdge32 k ++ recordsAgre32 k ++ recordsCore32 k

/-- An identity with its host index reduced to 32 bits. -/
def Ident.wrap : Ident → Ident
  | Ident.Node n => Ident.Node (wrap32 n)
  | x => x

/-- A port line with the host index of its peer reduced to 32 bits. -/
def PortLine.wrap (p : PortLine) : PortLine :=
  ⟨p.loc, p.gap, p.peer.wrap, p.peerPort⟩

/-- A line with its host index reduced to 32 bits. -/
def Line.wrap : Line → Line
  | Line.header d n id => Line.header d n id.wrap
  | Line.port p => Line.port p.wrap
  | x => x

/-- A record with all its host indices reduced to 32 bits. -/
def Record.wrap (r : Record) : Record :=
  ⟨r.dev, r.ports, r.id.wrap, r.lines.map PortLine.wrap⟩

/-- An object whose stream has all host indices reduced to 32 bits. -/
def topologie.wrapFile (T : topologie) : topologie :=
  { T with file := T.file.map Line.wrap }

end FatTree

namespace FatTree

/-! ## Loop lemmas -/

/-- A loop whose body bumps a counter and appends lines that depend on the
index and the counter. -/
theorem foldl_emit {γ : Type} (lo : Int) (body : Int → γ × List Line → γ × List Line)
    (step : Int → γ → γ) (g : Int → γ → List Line)
    (hbody : ∀ i c f, body i (c, f) = (step i c, f ++ g i c))
    (cnt : Nat → γ) (hc : ∀ m, cnt (m + 1) = step (lo + (m : Int)) (cnt m))
    (n : Nat) (f : List Line) :
    (List.range n).foldl (fun s (m : Nat) => body (lo + (m : Int)) s) (cnt 0, f)
      = (cnt n, f ++ (List.range n).flatMap (fun (m : Nat) => g (lo + (m : Int)) (cnt m))) := by
  induction n with
  | zero => simp
  | succ n ih =>
    rw [List.range_succ, List.foldl_append, ih]
    simp [hbody, hc, List.flatMap_append]

theorem forLoop_emit {γ : Type} (lo hi : Int) (body : Int → γ × List Line → γ × List Line)
    (step : Int → γ → γ) (g : Int → γ → List Line)
    (hbody : ∀ i c f, body i (c, f) = (step i c, f ++ g i c))
    (cnt : Nat → γ) (hc : ∀ m, cnt (m + 1) = step (lo + (m : Int)) (cnt m))
    (f : List Line) :
    forLoop lo hi body (cnt 0, f)
      = (cnt (hi - lo).toNat,
         f ++ (List.range (hi - lo).toNat).flatMap (fun (m : Nat) => g (lo + (m : Int)) (cnt m))) :=
  foldl_emit lo body step g hbody cnt hc _ f

/-- A loop whose body only appends lines that depend on the index. -/
theorem forLoop_append (lo hi : Int) (body : Int → List Line → List Line)
    (g : Int → List Line) (hbody : ∀ i f, body i f = f ++ g i) (f : List Line) :
    forLoop lo hi body f
      = f ++ (List.range (hi - lo).toNat).flatMap (fun (m : Nat) => g (lo + (m : Int))) := by
  unfold forLoop
  induction (hi - lo).toNat with
  | zero => simp
  | succ n ih =>
    rw [List.range_succ, List.foldl_append, ih]
    simp [hbody, List.flatMap_append]

theorem emitted_of_append (m : topologie → topologie) (T : topologie) (L : List Line)
    (h : (m T).file = T.file ++ L) : emitted m T = L := by
  unfold emitted
  rw [h, List.drop_left]

/-! ## Records of a list of blocks -/

theorem portsOf_map_port (ps : List PortLine) (rest : List Line)
    (hrest : portsOf rest = []) : portsOf (ps.map Line.port ++ rest) = ps := by
  induction ps with
  | nil => simpa using hrest
  | cons p ps ih => simp [portsOf, ih]

theorem records_map_port (ps : List PortLine) (rest : List Line) :
    records (ps.map Line.port ++ rest) = records rest := by
  induction ps with
  | nil => rfl
  | cons p ps ih => simpa [records] using ih

theorem portsOf_blocks (rs : List Record) (rest : List Line) (hrest : portsOf rest = []) :
    portsOf (rs.flatMap Record.block ++ rest) = [] := by
  cases rs with
  | nil => simpa using hrest
  | cons r rs => simp [Record.block, portsOf]

theorem records_blocks_append (rs : List Record) (rest : List Line)
    (hrest : portsOf rest = []) :
    records (rs.flatMap Record.block ++ rest) = rs ++ records rest := by
  induction rs with
  | nil => simp
  | cons r rs ih =>
    have h1 : portsOf (r.lines.map Line.port ++ (rs.flatMap Record.block ++ rest)) = r.lines :=
      portsOf_map_port _ _ (portsOf_blocks rs rest hrest)
    have h2 := records_map_port r.lines (rs.flatMap Record.block ++ rest)
    have e : (r :: rs).flatMap Record.block ++ rest
        = Line.header r.dev r.ports r.id ::
            (r.lines.map Line.port ++ (rs.flatMap Record.block ++ rest)) := by
      simp [Record.block]
    rw [e, records, h1, h2, ih]
    rfl

theorem records_blocks (rs : List Record) : records (rs.flatMap Record.block) = rs := by
  have h := records_blocks_append rs [] rfl
  simpa [records] using h

/-! ## `printNode` -/

theorem node_inner (i j nh c : Int) (f : List Line) :
    forLoop 0 nh (fun t s => nodeStep i j t s) (c, f)
      = (c + (nh.toNat : Int),
         f ++ ((List.range nh.toNat).map fun (t : Nat) => hostRec (c + (t : Int)) i j t).flatMap
            Record.block) := by
  have h := forLoop_emit 0 nh (fun t s => nodeStep i j t s) (fun _ c => c + 1)
    (fun t c => (hostRec c i j t).block) (fun _ _ _ => rfl)
    (fun m => c + (m : Int)) (fun m => by push_cast; ring) f
  simp only [Nat.cast_zero, add_zero, sub_zero, zero_add] at h
  rw [h, List.flatMap_map]

theorem node_mid (i ne nh c : Int) (f : List Line) :
    forLoop 0 ne (fun j s => forLoop 0 nh (fun t s => nodeStep i j t s) s) (c, f)
      = (c + (ne.toNat : Int) * (nh.toNat : Int),
         f ++ ((List.range ne.toNat).flatMap fun (j : Nat) =>
            (List.range nh.toNat).map fun (t : Nat) =>
              hostRec (c + (j : Int) * (nh.toNat : Int) + (t : Int)) i j t).flatMap
            Record.block) := by
  have h := forLoop_emit 0 ne
    (fun j s => forLoop 0 nh (fun t s => nodeStep i j t s) s)
    (fun _ c => c + (nh.toNat : Int))
    (fun j c => ((List.range nh.toNat).map fun (t : Nat) =>
      hostRec (c + (t : Int)) i j t).flatMap Record.block)
    (fun j c f => node_inner i j nh c f)
    (fun m => c + (m : Int) * (nh.toNat : Int)) (fun m => by push_cast; ring) f
  simp only [Nat.cast_zero, zero_mul, add_zero, sub_zero, zero_add] at h
  rw [h, List.flatMap_assoc]

theorem node_outer (np ne nh : Int) (f : List Line) :
    forLoop 0 np (fun i s =>
        forLoop 0 ne (fun j s => forLoop 0 nh (fun t s => nodeStep i j t s) s) s) (0, f)
      = ((np.toNat : Int) * ((ne.toNat : Int) * (nh.toNat : Int)),
         f ++ (nodeLayout np.toNat ne.toNat nh.toNat).flatMap Record.block) := by
  have h := forLoop_emit 0 np
    (fun i s => forLoop 0 ne (fun j s => forLoop 0 nh (fun t s => nodeStep i j t s) s) s)
    (fun _ c => c + (ne.toNat : Int) * (nh.toNat : Int))
    (fun i c => ((List.range ne.toNat).flatMap fun (j : Nat) =>
            (List.range nh.toNat).map fun (t : Nat) =>
              hostRec (c + (j : Int) * (nh.toNat : Int) + (t : Int)) i j t).flatMap
            Record.block)
    (fun i c f => node_mid i ne nh c f)
    (fun m => (m : Int) * ((ne.toNat : Int) * (nh.toNat : Int)))
    (fun m => by push_cast; ring) f
  simp only [Nat.cast_zero, zero_mul, add_zero, sub_zero, zero_add] at h
  rw [h, nodeLayout, List.flatMap_assoc]

/-- Closed form of `printNode`. -/
theorem printNode_file (T : topologie) :
    T.printNode.file
      = T.file ++ (nodeLayout T.num_pod.toNat T.num_edge.toNat T.num_host.toNat).flatMap
          Record.block := by
  simp only [topologie.printNode]
  rw [node_outer]

/-! ## `printEdge` -/

theorem cmod_two_nat (n : Nat) : cmod (n : Int) 2 = ((n % 2 : Nat) : Int) := by
  unfold cmod
  rw [Int.tmod_eq_emod (Int.ofNat_nonneg n) (by decide)]
  omega

theorem cdiv_two_nat (n : Nat) : cdiv (n : Int) 2 = ((n / 2 : Nat) : Int) := by
  unfold cdiv
  rw [Int.tdiv_eq_ediv (Int.ofNat_nonneg n) (by decide)]
  omega

theorem edge_ports (i j n c idy : Int) (f : List Line) :
    forLoop 0 n (fun t st => edgeStep i j t st) ((c, idy), f)
      = ((c + ((n.toNat / 2 : Nat) : Int), idy + (((n.toNat + 1) / 2 : Nat) : Int)),
         f ++ ((List.range n.toNat).map (edgePort i j c idy)).map Line.port) := by
  have h := forLoop_emit 0 n (fun t st => edgeStep i j t st)
    (fun t c => if cmod t 2 = 0 then (c.1, c.2 + 1) else (c.1 + 1, c.2))
    (fun t c => if cmod t 2 = 0 then [Line.port ⟨t + 1, " ", Ident.Aggr i c.2, (j + 1) * 2⟩]
      else [Line.port ⟨t + 1, " ", Ident.Node c.1, 1⟩])
    (fun t c f => by dsimp only [edgeStep]; split <;> rfl)
    (fun m => (c + ((m / 2 : Nat) : Int), idy + (((m + 1) / 2 : Nat) : Int)))
    (fun m => by
      simp only [zero_add, cmod_two_nat]
      rcases Nat.mod_two_eq_zero_or_one m with h | h
      · simp only [h, Nat.cast_zero, if_true, Prod.mk.injEq]
        constructor <;> omega
      · simp only [h, Nat.cast_one, one_ne_zero, if_false, Prod.mk.injEq]
        constructor <;> omega) f
  simp only [Nat.cast_zero, add_zero, sub_zero, zero_add, Nat.zero_div,
    show (0 + 1) / 2 = 0 from rfl] at h
  rw [h, List.map_map, List.map_eq_flatMap]
  congr 3
  funext m
  simp only [cmod_two_nat, edgePort, Function.comp]
  rcases Nat.mod_two_eq_zero_or_one m with h | h
  · simp [h]
    omega
  · simp [h]

theorem edge_switch (T : topologie) (i j c : Int) (f : List Line) :
    edgeSwitch T i j (c, f)
      = (c + ((T.num_port.toNat / 2 : Nat) : Int),
         f ++ (edgeRec T.num_port (cdiv T.num_pod 2) T.num_port.toNat c i j).block) := by
  simp only [edgeSwitch, edge_ports, edgeRec, Record.block, List.append_assoc,
    List.singleton_append]

theorem edge_mid (T : topologie) (i c : Int) (f : List Line) :
    forLoop 0 T.num_edge (fun j s => edgeSwitch T i j s) (c, f)
      = (c + (T.num_edge.toNat : Int) * ((T.num_port.toNat / 2 : Nat) : Int),
         f ++ ((List.range T.num_edge.toNat).map fun (j : Nat) =>
            edgeRec T.num_port (cdiv T.num_pod 2) T.num_port.toNat
              (c + (j : Int) * ((T.num_port.toNat / 2 : Nat) : Int)) i j).flatMap
            Record.block) := by
  have h := forLoop_emit 0 T.num_edge (fun j s => edgeSwitch T i j s)
    (fun _ c => c + ((T.num_port.toNat / 2 : Nat) : Int))
    (fun j c => (edgeRec T.num_port (cdiv T.num_pod 2) T.num_port.toNat c i j).block)
    (fun j c f => edge_switch T i j c f)
    (fun m => c + (m : Int) * ((T.num_port.toNat / 2 : Nat) : Int))
    (fun m => by push_cast; ring) f
  simp only [Nat.cast_zero, zero_mul, add_zero, sub_zero, zero_add] at h
  rw [h, List.flatMap_map]

/-- Closed form of `printEdge`. -/
theorem printEdge_file (T : topologie) :
    T.printEdge.file
      = T.file ++ (edgeLayout T.num_port (cdiv T.num_pod 2) T.num_port.toNat
          T.num_pod.toNat T.num_edge.toNat).flatMap Record.block := by
  have h := forLoop_emit 0 T.num_pod
    (fun i s => forLoop 0 T.num_edge (fun j s => edgeSwitch T i j s) s)
    (fun _ c => c + (T.num_edge.toNat : Int) * ((T.num_port.toNat / 2 : Nat) : Int))
    (fun i c => ((List.range T.num_edge.toNat).map fun (j : Nat) =>
            edgeRec T.num_port (cdiv T.num_pod 2) T.num_port.toNat
              (c + (j : Int) * ((T.num_port.toNat / 2 : Nat) : Int)) i j).flatMap
            Record.block)
    (fun i c f => edge_mid T i c f)
    (fun m => (m : Int) * ((T.num_edge.toNat : Int) * ((T.num_port.toNat / 2 : Nat) : Int)))
    (fun m => by push_cast; ring) T.file
  simp only [Nat.cast_zero, zero_mul, add_zero, sub_zero, zero_add] at h
  simp only [topologie.printEdge]
  rw [h, edgeLayout, List.flatMap_assoc]

/-! ## `printAgre` and `printCore` -/

theorem agre_ports (T : topologie) (i j : Int) (f : List Line) :
    forLoopLe 1 T.k (fun m file => agreStep T i j m file) f
      = f ++ ((List.range T.k.toNat).map fun (m : Nat) =>
          agrePort T.k i j (1 + (m : Int))).map Line.port := by
  unfold forLoopLe
  rw [forLoop_append 1 (T.k + 1) _ (fun m => [Line.port (agrePort T.k i j m)])
    (fun m f => by simp only [agreStep, agrePort]; split <;> rfl)]
  simp only [add_sub_cancel_right, List.map_map]
  rw [List.map_eq_flatMap]
  rfl

theorem agre_mid (T : topologie) (i : Int) (f : List Line) :
    forLoopLe 1 T.num_agre (fun j file =>
        forLoopLe 1 T.k (fun m file => agreStep T i j m file)
          (file ++ [Line.header Dev.Switch T.num_port
            (Ident.Aggr (i - 1) (j + cdiv T.k 2 - 1))])) f
      = f ++ ((List.range T.num_agre.toNat).map fun (j : Nat) =>
          agreRec T i (1 + (j : Int))).flatMap Record.block := by
  unfold forLoopLe
  rw [forLoop_append 1 (T.num_agre + 1) _ (fun j => (agreRec T i j).block)
    (fun j f => by
      rw [← forLoopLe, agre_ports]
      simp [agreRec, Record.block])]
  simp only [add_sub_cancel_right]
  rw [List.flatMap_map]

/-- Closed form of `printAgre`. -/
theorem printAgre_file (T : topologie) :
    T.printAgre.file = T.file ++ (agreLayout T).flatMap Record.block := by
  simp only [topologie.printAgre]
  unfold forLoopLe
  rw [forLoop_append 1 (T.k + 1) _
    (fun i => ((List.range T.num_agre.toNat).map fun (j : Nat) =>
      agreRec T i (1 + (j : Int))).flatMap Record.block)
    (fun i f => by exact agre_mid T i f)]
  simp only [add_sub_cancel_right]
  rw [agreLayout, List.flatMap_assoc]

theorem core_ports (T : topologie) (i j : Int) (f : List Line) :
    forLoopLe 1 T.k (fun m file => coreStep T i j m file) f
      = f ++ ((List.range T.k.toNat).map fun (m : Nat) =>
          corePort T.k i j (1 + (m : Int))).map Line.port := by
  unfold forLoopLe
  rw [forLoop_append 1 (T.k + 1) _ (fun m => [Line.port (corePort T.k i j m)])
    (fun m f => by rfl)]
  simp only [add_sub_cancel_right, List.map_map]
  rw [List.map_eq_flatMap]
  rfl

theorem core_mid (T : topologie) (i : Int) (f : List Line) :
    forLoopLe 1 (cdiv T.k 2) (fun j file =>
        forLoopLe 1 T.k (fun m file => coreStep T i j m file)
          (file ++ [Line.header Dev.Switch T.num_port (Ident.Core T.k i j)])) f
      = f ++ ((List.range (cdiv T.k 2).toNat).map fun (j : Nat) =>
          coreRec T i (1 + (j : Int))).flatMap Record.block := by
  unfold forLoopLe
  rw [forLoop_append 1 (cdiv T.k 2 + 1) _ (fun j => (coreRec T i j).block)
    (fun j f => by
      rw [← forLoopLe, core_ports]
      simp [coreRec, Record.block])]
  simp only [add_sub_cancel_right]
  rw [List.flatMap_map]

/-- Closed form of `printCore`. -/
theorem printCore_file (T : topologie) :
    T.printCore.file = T.file ++ (coreLayout T).flatMap Record.block := by
  simp only [topologie.printCore]
  unfold forLoopLe
  rw [forLoop_append 1 (cdiv T.k 2 + 1) _
    (fun i => ((List.range (cdiv T.k 2).toNat).map fun (j : Nat) =>
      coreRec T i (1 + (j : Int))).flatMap Record.block)
    (fun i f => by exact core_mid T i f)]
  simp only [add_sub_cancel_right]
  rw [coreLayout, List.flatMap_assoc]

/-! ## Records of the four passes -/

theorem recordsNode_eq (k : Int) :
    recordsNode k = nodeLayout k.toNat (cdiv k 2).toNat (cdiv k 2).toNat := by
  unfold recordsNode
  rw [emitted_of_append _ _ _ (printNode_file _), records_blocks]
  rfl

theorem recordsEdge_eq (k : Int) :
    recordsEdge k = edgeLayout k (cdiv k 2) k.toNat k.toNat (cdiv k 2).toNat := by
  unfold recordsEdge
  rw [emitted_of_append _ _ _ (printEdge_file _), records_blocks]
  rfl

theorem recordsAgre_eq (k : Int) : recordsAgre k = agreLayout (topologie.new k) := by
  unfold recordsAgre
  rw [emitted_of_append _ _ _ (printAgre_file _), records_blocks]
  rfl

theorem recordsCore_eq (k : Int) : recordsCore k = coreLayout (topologie.new k) := by
  unfold recordsCore
  rw [emitted_of_append _ _ _ (printCore_file _), records_blocks]
  rfl

/-- An even `k ≥ 4` is `2 * h` with `h ≥ 2`. -/
theorem even_param (k : Int) (h4 : 4 ≤ k) (he : k % 2 = 0) :
    ∃ h : Nat, 2 ≤ h ∧ k = 2 * (h : Int) :=
  ⟨(k / 2).toNat, by omega, by omega⟩

theorem cdiv_two_mul (h : Nat) : cdiv (2 * (h : Int)) 2 = (h : Int) := by
  have e : (2 * (h : Int)) = ((2 * h : Nat) : Int) := by push_cast; ring
  rw [e, cdiv_two_nat]
  congr 1
  omega

theorem toNat_two_mul (h : Nat) : (2 * (h : Int)).toNat = 2 * h := by omega

theorem mem_recordsNode (h : Nat) (r : Record) :
    r ∈ recordsNode (2 * (h : Int)) ↔
      ∃ i j t : Nat, i < 2 * h ∧ j < h ∧ t < h ∧
        r = hostRec ((i : Int) * ((h : Int) * (h : Int)) + (j : Int) * (h : Int) + (t : Int))
              i j t := by
  rw [recordsNode_eq, cdiv_two_mul, toNat_two_mul, Int.toNat_ofNat, nodeLayout]
  simp only [List.mem_flatMap, List.mem_map, List.mem_range]
  constructor
  · rintro ⟨i, hi, j, hj, t, ht, rfl⟩
    exact ⟨i, j, t, hi, hj, ht, rfl⟩
  · rintro ⟨i, j, t, hi, hj, ht, rfl⟩
    exact ⟨i, hi, j, hj, t, ht, rfl⟩

theorem mem_recordsEdge (h : Nat) (r : Record) :
    r ∈ recordsEdge (2 * (h : Int)) ↔
      ∃ i j : Nat, i < 2 * h ∧ j < h ∧
        r = edgeRec (2 * (h : Int)) (h : Int) (2 * h)
              ((i : Int) * ((h : Int) * (h : Int)) + (j : Int) * (h : Int)) i j := by
  rw [recordsEdge_eq, cdiv_two_mul, toNat_two_mul, Int.toNat_ofNat, edgeLayout]
  simp only [List.mem_flatMap, List.mem_map, List.mem_range, Nat.mul_div_cancel_left h
    (show 0 < 2 by decide)]
  constructor
  · rintro ⟨i, hi, j, hj, rfl⟩
    exact ⟨i, j, hi, hj, rfl⟩
  · rintro ⟨i, j, hi, hj, rfl⟩
    exact ⟨i, hi, j, hj, rfl⟩

/-- Aggregation record of pod `p` and slot `h + s` for `k = 2 * h`. -/
theorem agreRec_eq (h : Nat) (p s : Nat) :
    agreRec (topologie.new (2 * (h : Int))) (1 + (p : Int)) (1 + (s : Int))
      = ⟨Dev.Switch, 2 * (h : Int), Ident.Aggr p ((h : Int) + (s : Int)),
         (List.range (2 * h)).map fun (m : Nat) =>
           agrePort (2 * (h : Int)) (1 + (p : Int)) (1 + (s : Int)) (1 + (m : Int))⟩ := by
  simp only [agreRec, topologie.new, cdiv_two_mul, toNat_two_mul]
  congr 2 <;> ring

theorem mem_recordsAgre (h : Nat) (r : Record) :
    r ∈ recordsAgre (2 * (h : Int)) ↔
      ∃ p s : Nat, p < 2 * h ∧ s < h ∧
        r = agreRec (topologie.new (2 * (h : Int))) (1 + (p : Int)) (1 + (s : Int)) := by
  rw [recordsAgre_eq, agreLayout]
  simp only [topologie.new, cdiv_two_mul, toNat_two_mul, Int.toNat_ofNat,
    List.mem_flatMap, List.mem_map, List.mem_range]
  constructor
  · rintro ⟨i, hi, j, hj, rfl⟩
    exact ⟨i, j, hi, hj, rfl⟩
  · rintro ⟨i, j, hi, hj, rfl⟩
    exact ⟨i, hi, j, hj, rfl⟩

/-- Core record of group `g + 1` and index `c + 1` for `k = 2 * h`. -/
theorem coreRec_eq (h : Nat) (g c : Nat) :
    coreRec (topologie.new (2 * (h : Int))) (1 + (g : Int)) (1 + (c : Int))
      = ⟨Dev.Switch, 2 * (h : Int), Ident.Core (2 * (h : Int)) (1 + (g : Int)) (1 + (c : Int)),
         (List.range (2 * h)).map fun (m : Nat) =>
           corePort (2 * (h : Int)) (1 + (g : Int)) (1 + (c : Int)) (1 + (m : Int))⟩ := by
  simp only [coreRec, topologie.new, toNat_two_mul]

theorem mem_recordsCore (h : Nat) (r : Record) :
    r ∈ recordsCore (2 * (h : Int)) ↔
      ∃ g c : Nat, g < h ∧ c < h ∧
        r = coreRec (topologie.new (2 * (h : Int))) (1 + (g : Int)) (1 + (c : Int)) := by
  rw [recordsCore_eq, coreLayout]
  simp only [topologie.new, cdiv_two_mul, toNat_two_mul, Int.toNat_ofNat,
    List.mem_flatMap, List.mem_map, List.mem_range]
  constructor
  · rintro ⟨i, hi, j, hj, rfl⟩
    exact ⟨i, j, hi, hj, rfl⟩
  · rintro ⟨i, j, hi, hj, rfl⟩
    exact ⟨i, hi, j, hj, rfl⟩

/-! ## Counting records -/

theorem length_flatMap_const {α β : Type} (l : List α) (f : α → List β) (c : Nat)
    (hf : ∀ x ∈ l, (f x).length = c) : (l.flatMap f).length = l.length * c := by
  induction l with
  | nil => simp
  | cons a l ih =>
    rw [List.flatMap_cons, List.length_append, hf a (List.mem_cons_self a l),
      ih (fun x hx => hf x (List.mem_cons_of_mem a hx)), List.length_cons]
    ring

theorem nodeLayout_length (np ne nh : Nat) :
    (nodeLayout np ne nh).length = np * (ne * nh) := by
  unfold nodeLayout
  rw [length_flatMap_const _ _ (ne * nh), List.length_range]
  intro i _
  rw [length_flatMap_const _ _ nh, List.length_range]
  intro j _
  rw [List.length_map, List.length_range]

theorem edgeLayout_length (pt idy : Int) (n np ne : Nat) :
    (edgeLayout pt idy n np ne).length = np * ne := by
  unfold edgeLayout
  rw [length_flatMap_const _ _ ne, List.length_range]
  intro i _
  rw [List.length_map, List.length_range]

theorem agreLayout_length (T : topologie) :
    (agreLayout T).length = T.k.toNat * T.num_agre.toNat := by
  unfold agreLayout
  rw [length_flatMap_const _ _ T.num_agre.toNat, List.length_range]
  intro i _
  rw [List.length_map, List.length_range]

theorem coreLayout_length (T : topologie) :
    (coreLayout T).length = (cdiv T.k 2).toNat * (cdiv T.k 2).toNat := by
  unfold coreLayout
  rw [length_flatMap_const _ _ (cdiv T.k 2).toNat, List.length_range]
  intro i _
  rw [List.length_map, List.length_range]

theorem lengths_even (h : Nat) :
    (recordsNode (2 * (h : Int))).length = 2 * h * (h * h) ∧
    (recordsEdge (2 * (h : Int))).length = 2 * h * h ∧
    (recordsAgre (2 * (h : Int))).length = 2 * h * h ∧
    (recordsCore (2 * (h : Int))).length = h * h := by
  rw [recordsNode_eq, recordsEdge_eq, recordsAgre_eq, recordsCore_eq, nodeLayout_length,
    edgeLayout_length, agreLayout_length, coreLayout_length]
  simp only [topologie.new, cdiv_two_mul, toNat_two_mul, Int.toNat_ofNat, and_self]

/-- C2. For every even `k ≥ 4`, `printNode` emits exactly `(k/2)^2*k` records, all
host records; `printEdge` emits exactly `k*(k/2)` records, all edge switches;
`printAgre` emits exactly `k*(k/2)` records, all aggregation switches;
`printCore` emits exactly `(k/2)^2` records, all core switches.  For `k = 4`
the four counts are 16, 8, 8 and 4. -/
theorem C2_record_counts (k : Int) (h4 : 4 ≤ k) (he : k % 2 = 0) :
    (((recordsNode k).length : Int) = (k / 2) ^ 2 * k ∧
      ∀ r ∈ recordsNode k, r.dev = Dev.Hca ∧ r.id.kind = Kind.node) ∧
    (((recordsEdge k).length : Int) = k * (k / 2) ∧
      ∀ r ∈ recordsEdge k, r.dev = Dev.Switch ∧ r.id.kind = Kind.edge) ∧
    (((recordsAgre k).length : Int) = k * (k / 2) ∧
      ∀ r ∈ recordsAgre k, r.dev = Dev.Switch ∧ r.id.kind = Kind.aggr) ∧
    (((recordsCore k).length : Int) = (k / 2) ^ 2 ∧
      ∀ r ∈ recordsCore k, r.dev = Dev.Switch ∧ r.id.kind = Kind.core) ∧
    ((recordsNode 4).length = 16 ∧ (recordsEdge 4).length = 8 ∧
      (recordsAgre 4).length = 8 ∧ (recordsCore 4).length = 4) := by
  obtain ⟨h, -, rfl⟩ := even_param k h4 he
  obtain ⟨l1, l2, l3, l4⟩ := lengths_even h
  have hdiv : (2 * (h : Int)) / 2 = (h : Int) := by omega
  refine ⟨⟨?_, ?_⟩, ⟨?_, ?_⟩, ⟨?_, ?_⟩, ⟨?_, ?_⟩, ?_⟩
  · rw [l1, hdiv]; push_cast; ring
  · intro r hr
    obtain ⟨i, j, t, -, -, -, rfl⟩ := (mem_recordsNode h r).1 hr
    exact ⟨rfl, rfl⟩
  · rw [l2, hdiv]; push_cast; ring
  · intro r hr
    obtain ⟨i, j, -, -, rfl⟩ := (mem_recordsEdge h r).1 hr
    exact ⟨rfl, rfl⟩
  · rw [l3, hdiv]; push_cast; ring
  · intro r hr
    obtain ⟨i, j, -, -, rfl⟩ := (mem_recordsAgre h r).1 hr
    exact ⟨rfl, rfl⟩
  · rw [l4, hdiv]; push_cast; ring
  · intro r hr
    obtain ⟨i, j, -, -, rfl⟩ := (mem_recordsCore h r).1 hr
    exact ⟨rfl, rfl⟩
  · exact lengths_even 2

/-- Instance of C2 at `k = 4`: 16 hosts, 8 edge, 8 aggregation and 4 core
switches. -/
theorem C2_record_counts_witness :
    ((recordsNode 4).length : Int) = 16 ∧ ((recordsEdge 4).length : Int) = 8 ∧
    ((recordsAgre 4).length : Int) = 8 ∧ ((recordsCore 4).length : Int) = 4 := by
  have h := C2_record_counts 4 (by decide) (by decide)
  obtain ⟨⟨a, -⟩, ⟨b, -⟩, ⟨c, -⟩, ⟨d, -⟩, -⟩ := h
  norm_num at a b c d
  exact ⟨a, b, c, d⟩

/-! ## Port lines -/

theorem edgePort_even (i j c idy : Int) (s : Nat) :
    edgePort i j c idy (2 * s)
      = ⟨2 * (s : Int) + 1, " ", Ident.Aggr i (idy + (s : Int)), (j + 1) * 2⟩ := by
  simp [edgePort]

theorem edgePort_odd (i j c idy : Int) (s : Nat) :
    edgePort i j c idy (2 * s + 1)
      = ⟨2 * (s : Int) + 2, " ", Ident.Node (c + (s : Int)), 1⟩ := by
  have h1 : (2 * s + 1) % 2 = 1 := by omega
  have h2 : (2 * s + 1) / 2 = s := by omega
  simp only [edgePort, h1, h2, one_ne_zero, if_false]
  congr 1

theorem agrePort_odd (k i j : Int) (c : Nat) :
    agrePort k i j (1 + ((2 * c : Nat) : Int))
      = ⟨2 * (c : Int) + 1, "  ", Ident.Core k j ((c : Int) + 1), i⟩ := by
  have e : (1 + ((2 * c : Nat) : Int)) = ((2 * c + 1 : Nat) : Int) := by push_cast; ring
  have h1 : (2 * c + 1) % 2 = 1 := by omega
  have h2 : (2 * c + 1) / 2 = c := by omega
  rw [agrePort, e, cmod_two_nat, cdiv_two_nat, h1, h2]
  simp

theorem agrePort_even (k i j : Int) (c : Nat) :
    agrePort k i j (1 + ((2 * c + 1 : Nat) : Int))
      = ⟨2 * (c : Int) + 2, "  ", Ident.Edge (i - 1) (c : Int), j * 2 - 1⟩ := by
  have e : (1 + ((2 * c + 1 : Nat) : Int)) = ((2 * c + 2 : Nat) : Int) := by push_cast; ring
  have h1 : (2 * c + 2) % 2 = 0 := by omega
  have h2 : (2 * c + 2) / 2 = c + 1 := by omega
  rw [agrePort, e, cmod_two_nat, cdiv_two_nat, h1, h2]
  simp

/-- Every loop index is `2 * s` or `2 * s + 1`. -/
theorem index_cases (t n : Nat) (ht : t < 2 * n) :
    ∃ s, s < n ∧ (t = 2 * s ∨ t = 2 * s + 1) :=
  ⟨t / 2, by omega, by omega⟩

/-! ## Degree -/

theorem edgeRec_locs (pt idy : Int) (n : Nat) (c i j : Int) :
    (edgeRec pt idy n c i j).lines.map PortLine.loc
      = (List.range n).map fun (m : Nat) => (m : Int) + 1 := by
  simp only [edgeRec, List.map_map]
  apply List.map_congr_left
  intro t _
  simp only [Function.comp, edgePort]
  split <;> rfl

theorem agreRec_locs (T : topologie) (i j : Int) :
    (agreRec T i j).lines.map PortLine.loc
      = (List.range T.k.toNat).map fun (m : Nat) => (m : Int) + 1 := by
  simp only [agreRec, List.map_map]
  apply List.map_congr_left
  intro t _
  simp only [Function.comp, agrePort]
  split <;> exact add_comm _ _

theorem coreRec_locs (T : topologie) (i j : Int) :
    (coreRec T i j).lines.map PortLine.loc
      = (List.range T.k.toNat).map fun (m : Nat) => (m : Int) + 1 := by
  simp only [coreRec, List.map_map]
  apply List.map_congr_left
  intro t _
  exact add_comm _ _

/-- C3. For every even `k ≥ 4`, every record of an edge, aggregation or core
switch is a `Switch` record that declares port count `k` and owns exactly `k`
port lines, whose local port numbers are `1, 2, ..., k` in this order; every
host record is an `Hca` record that declares port count 1 and owns exactly one
port line, numbered 1. -/
theorem C3_degree_uniformity (k : Int) (h4 : 4 ≤ k) (he : k % 2 = 0) :
    (∀ r ∈ recordsEdge k ++ recordsAgre k ++ recordsCore k,
      r.dev = Dev.Switch ∧ r.ports = k ∧ (r.lines.length : Int) = k ∧
      r.lines.map PortLine.loc = (List.range k.toNat).map fun (m : Nat) => (m : Int) + 1) ∧
    (∀ r ∈ recordsNode k,
      r.dev = Dev.Hca ∧ r.ports = 1 ∧ r.lines.length = 1 ∧
      r.lines.map PortLine.loc = [1]) := by
  obtain ⟨h, -, rfl⟩ := even_param k h4 he
  have key : ∀ r : Record,
      r.lines.map PortLine.loc = (List.range (2 * h)).map (fun (m : Nat) => (m : Int) + 1) →
      (r.lines.length : Int) = 2 * (h : Int) := by
    intro r hr
    have := congrArg List.length hr
    simp only [List.length_map, List.length_range] at this
    rw [this]
    push_cast
    ring
  constructor
  · intro r hr
    rw [toNat_two_mul]
    simp only [List.mem_append] at hr
    rcases hr with (hr | hr) | hr
    · obtain ⟨i, j, -, -, rfl⟩ := (mem_recordsEdge h r).1 hr
      exact ⟨rfl, rfl, key _ (edgeRec_locs _ _ _ _ _ _), edgeRec_locs _ _ _ _ _ _⟩
    · obtain ⟨i, j, -, -, rfl⟩ := (mem_recordsAgre h r).1 hr
      have e := agreRec_locs (topologie.new (2 * (h : Int))) (1 + (i : Int)) (1 + (j : Int))
      simp only [topologie.new, toNat_two_mul] at e
      exact ⟨rfl, rfl, key _ e, e⟩
    · obtain ⟨i, j, -, -, rfl⟩ := (mem_recordsCore h r).1 hr
      have e := coreRec_locs (topologie.new (2 * (h : Int))) (1 + (i : Int)) (1 + (j : Int))
      simp only [topologie.new, toNat_two_mul] at e
      exact ⟨rfl, rfl, key _ e, e⟩
  · intro r hr
    obtain ⟨i, j, t, -, -, -, rfl⟩ := (mem_recordsNode h r).1 hr
    exact ⟨rfl, rfl, rfl, rfl⟩

/-- Instance of C3 at `k = 4`: the record of `Edge(0 0 1)` and the record of
`Node(0)`. -/
theorem C3_degree_uniformity_witness :
    ((⟨Dev.Switch, 4, Ident.Edge 0 0,
        [⟨1, " ", Ident.Aggr 0 2, 2⟩, ⟨2, " ", Ident.Node 0, 1⟩,
         ⟨3, " ", Ident.Aggr 0 3, 2⟩, ⟨4, " ", Ident.Node 1, 1⟩]⟩ : Record)
        ∈ recordsEdge 4 ++ recordsAgre 4 ++ recordsCore 4 ∧
      ([⟨1, " ", Ident.Aggr 0 2, 2⟩, ⟨2, " ", Ident.Node 0, 1⟩,
         ⟨3, " ", Ident.Aggr 0 3, 2⟩, ⟨4, " ", Ident.Node 1, 1⟩] : List PortLine).map
          PortLine.loc
        = (List.range (4 : Int).toNat).map fun (m : Nat) => (m : Int) + 1) ∧
    ((⟨Dev.Hca, 1, Ident.Node 0, [⟨1, "  ", Ident.Edge 0 0, 2⟩]⟩ : Record) ∈ recordsNode 4 ∧
      ([⟨1, "  ", Ident.Edge 0 0, 2⟩] : List PortLine).map PortLine.loc = [1]) :=
  ⟨⟨by decide,
    ((C3_degree_uniformity 4 (by decide) (by decide)).1
      ⟨Dev.Switch, 4, Ident.Edge 0 0,
        [⟨1, " ", Ident.Aggr 0 2, 2⟩, ⟨2, " ", Ident.Node 0, 1⟩,
         ⟨3, " ", Ident.Aggr 0 3, 2⟩, ⟨4, " ", Ident.Node 1, 1⟩]⟩ (by decide)).2.2.2⟩,
   ⟨by decide,
    ((C3_degree_uniformity 4 (by decide) (by decide)).2
      ⟨Dev.Hca, 1, Ident.Node 0, [⟨1, "  ", Ident.Edge 0 0, 2⟩]⟩ (by decide)).2.2.2⟩⟩

/-! ## Identities determine records -/

theorem radix_unique (h a b a' b' : Nat) (hb : b < h) (hb' : b' < h)
    (e : a * h + b = a' * h + b') : a = a' ∧ b = b' := by
  have h1 : (b + a * h) / h = a := by
    rw [Nat.add_mul_div_right _ _ (by omega), Nat.div_eq_of_lt hb, Nat.zero_add]
  have h2 : (b' + a' * h) / h = a' := by
    rw [Nat.add_mul_div_right _ _ (by omega), Nat.div_eq_of_lt hb', Nat.zero_add]
  have e' : b + a * h = b' + a' * h := by omega
  have ha : a = a' := by rw [← h1, ← h2, e']
  subst ha
  exact ⟨rfl, by omega⟩

theorem host_index_inj (h i j t i' j' t' : Nat) (hj : j < h) (ht : t < h)
    (hj' : j' < h) (ht' : t' < h)
    (e : (i : Int) * ((h : Int) * (h : Int)) + (j : Int) * (h : Int) + (t : Int)
       = (i' : Int) * ((h : Int) * (h : Int)) + (j' : Int) * (h : Int) + (t' : Int)) :
    i = i' ∧ j = j' ∧ t = t' := by
  have e1 : (i * h + j) * h + t = (i' * h + j') * h + t' := by
    have : ((i * (h * h) + j * h + t : Nat) : Int) = ((i' * (h * h) + j' * h + t' : Nat) : Int) := by
      push_cast
      exact e
    have := Int.ofNat_inj.1 this
    calc (i * h + j) * h + t = i * (h * h) + j * h + t := by ring
      _ = i' * (h * h) + j' * h + t' := this
      _ = (i' * h + j') * h + t' := by ring
  obtain ⟨e2, e3⟩ := radix_unique h _ _ _ _ ht ht' e1
  obtain ⟨e4, e5⟩ := radix_unique h _ _ _ _ hj hj' e2
  exact ⟨e4, e5, e3⟩

theorem mem_allRecords (k : Int) (r : Record) :
    r ∈ allRecords k ↔
      r ∈ recordsNode k ∨ r ∈ recordsEdge k ∨ r ∈ recordsAgre k ∨ r ∈ recordsCore k := by
  simp only [allRecords, List.mem_append, or_assoc]

/-- Two records of a run with the same identity are the same record. -/
theorem records_id_inj (h : Nat) (B B' : Record) (hB : B ∈ allRecords (2 * (h : Int)))
    (hB' : B' ∈ allRecords (2 * (h : Int))) (hid : B.id = B'.id) : B = B' := by
  rw [mem_allRecords] at hB hB'
  rcases hB with hB | hB | hB | hB
  · obtain ⟨i, j, t, -, hj, ht, rfl⟩ := (mem_recordsNode h B).1 hB
    rcases hB' with hB' | hB' | hB' | hB'
    · obtain ⟨i', j', t', -, hj', ht', rfl⟩ := (mem_recordsNode h B').1 hB'
      simp only [hostRec, Ident.Node.injEq] at hid
      obtain ⟨rfl, rfl, rfl⟩ := host_index_inj h i j t i' j' t' hj ht hj' ht' hid
      rfl
    · obtain ⟨i', j', -, -, rfl⟩ := (mem_recordsEdge h B').1 hB'
      simp [hostRec, edgeRec] at hid
    · obtain ⟨i', j', -, -, rfl⟩ := (mem_recordsAgre h B').1 hB'
      simp [hostRec, agreRec] at hid
    · obtain ⟨i', j', -, -, rfl⟩ := (mem_recordsCore h B').1 hB'
      simp [hostRec, coreRec] at hid
  · obtain ⟨i, j, -, -, rfl⟩ := (mem_recordsEdge h B).1 hB
    rcases hB' with hB' | hB' | hB' | hB'
    · obtain ⟨i', j', t', -, -, -, rfl⟩ := (mem_recordsNode h B').1 hB'
      simp [hostRec, edgeRec] at hid
    · obtain ⟨i', j', -, -, rfl⟩ := (mem_recordsEdge h B').1 hB'
      simp only [edgeRec, Ident.Edge.injEq, Nat.cast_inj] at hid
      obtain ⟨rfl, rfl⟩ := hid
      rfl
    · obtain ⟨i', j', -, -, rfl⟩ := (mem_recordsAgre h B').1 hB'
      simp [edgeRec, agreRec] at hid
    · obtain ⟨i', j', -, -, rfl⟩ := (mem_recordsCore h B').1 hB'
      simp [edgeRec, coreRec] at hid
  · obtain ⟨i, j, -, -, rfl⟩ := (mem_recordsAgre h B).1 hB
    rcases hB' with hB' | hB' | hB' | hB'
    · obtain ⟨i', j', t', -, -, -, rfl⟩ := (mem_recordsNode h B').1 hB'
      simp [hostRec, agreRec] at hid
    · obtain ⟨i', j', -, -, rfl⟩ := (mem_recordsEdge h B').1 hB'
      simp [edgeRec, agreRec] at hid
    · obtain ⟨i', j', -, -, rfl⟩ := (mem_recordsAgre h B').1 hB'
      simp only [agreRec_eq, Ident.Aggr.injEq, Nat.cast_inj, add_right_inj] at hid
      obtain ⟨rfl, rfl⟩ := hid
      rfl
    · obtain ⟨i', j', -, -, rfl⟩ := (mem_recordsCore h B').1 hB'
      simp [agreRec, coreRec] at hid
  · obtain ⟨i, j, -, -, rfl⟩ := (mem_recordsCore h B).1 hB
    rcases hB' with hB' | hB' | hB' | hB'
    · obtain ⟨i', j', t', -, -, -, rfl⟩ := (mem_recordsNode h B').1 hB'
      simp [hostRec, coreRec] at hid
    · obtain ⟨i', j', -, -, rfl⟩ := (mem_recordsEdge h B').1 hB'
      simp [edgeRec, coreRec] at hid
    · obtain ⟨i', j', -, -, rfl⟩ := (mem_recordsAgre h B').1 hB'
      simp [agreRec, coreRec] at hid
    · obtain ⟨i', j', -, -, rfl⟩ := (mem_recordsCore h B').1 hB'
      simp only [coreRec_eq, Ident.Core.injEq, Nat.cast_inj, add_right_inj, true_and] at hid
      obtain ⟨rfl, rfl⟩ := hid
      rfl

/-- The local port numbers of one record are pairwise distinct. -/
theorem lines_loc_inj (h : Nat) (B : Record) (hB : B ∈ allRecords (2 * (h : Int)))
    (q q' : PortLine) (hq : q ∈ B.lines) (hq' : q' ∈ B.lines) (e : q.loc = q'.loc) :
    q = q' := by
  have hnd : ∀ n : Nat, ((List.range n).map fun (m : Nat) => (m : Int) + 1).Nodup := by
    intro n
    apply List.Nodup.map _ (List.nodup_range n)
    intro a b hab
    simpa using hab
  have key : (B.lines.map PortLine.loc).Nodup := by
    rw [mem_allRecords] at hB
    rcases hB with hB | hB | hB | hB
    · obtain ⟨i, j, t, -, -, -, rfl⟩ := (mem_recordsNode h B).1 hB
      simp [hostRec]
    · obtain ⟨i, j, -, -, rfl⟩ := (mem_recordsEdge h B).1 hB
      rw [edgeRec_locs]
      exact hnd _
    · obtain ⟨i, j, -, -, rfl⟩ := (mem_recordsAgre h B).1 hB
      rw [agreRec_locs]
      exact hnd _
    · obtain ⟨i, j, -, -, rfl⟩ := (mem_recordsCore h B).1 hB
      rw [coreRec_locs]
      exact hnd _
  exact List.inj_on_of_nodup_map key hq hq' e

/-! ## Bidirectional agreement -/

/-- Every port line is answered by a port line of the peer's record. -/
theorem reverse_line_exists (h : Nat) (A : Record) (hA : A ∈ allRecords (2 * (h : Int)))
    (p : PortLine) (hp : p ∈ A.lines) :
    ∃ B ∈ allRecords (2 * (h : Int)), B.id = p.peer ∧
      ∃ q ∈ B.lines, q.loc = p.peerPort ∧ q.peer = A.id ∧ q.peerPort = p.loc := by
  rw [mem_allRecords] at hA
  rcases hA with hA | hA | hA | hA
  · -- host → edge switch
    obtain ⟨i, j, t, hi, hj, ht, rfl⟩ := (mem_recordsNode h A).1 hA
    simp only [hostRec, List.mem_singleton] at hp
    subst hp
    refine ⟨_, (mem_allRecords _ _).2 (Or.inr (Or.inl
      ((mem_recordsEdge h _).2 ⟨i, j, hi, hj, rfl⟩))), rfl,
      edgePort i j _ h (2 * t + 1),
      List.mem_map.2 ⟨2 * t + 1, List.mem_range.2 (by omega), rfl⟩, ?_⟩
    rw [edgePort_odd]
    refine ⟨by simp only; ring, rfl, rfl⟩
  · obtain ⟨i, j, hi, hj, rfl⟩ := (mem_recordsEdge h A).1 hA
    obtain ⟨t, ht, rfl⟩ := List.mem_map.1 hp
    obtain ⟨s, hs, rfl | rfl⟩ := index_cases t h (List.mem_range.1 ht)
    · -- edge switch → aggregation switch
      rw [edgePort_even]
      refine ⟨_, (mem_allRecords _ _).2 (Or.inr (Or.inr (Or.inl
        ((mem_recordsAgre h _).2 ⟨i, s, hi, hs, rfl⟩)))), ?_,
        agrePort (2 * (h : Int)) (1 + (i : Int)) (1 + (s : Int)) (1 + ((2 * j + 1 : Nat) : Int)),
        ?_, ?_⟩
      · rw [agreRec_eq]
      · rw [agreRec_eq]
        exact List.mem_map.2 ⟨2 * j + 1, List.mem_range.2 (by omega), rfl⟩
      · rw [agrePort_even]
        refine ⟨by simp only; ring, ?_, by simp only; ring⟩
        simp only [edgeRec, Ident.Edge.injEq, and_true]
        omega
    · -- edge switch → host
      rw [edgePort_odd]
      refine ⟨_, (mem_allRecords _ _).2 (Or.inl
        ((mem_recordsNode h _).2 ⟨i, j, s, hi, hj, hs, rfl⟩)), rfl, _,
        List.mem_singleton.2 rfl, ?_⟩
      refine ⟨rfl, rfl, by simp only; ring⟩
  · obtain ⟨p0, s, hp0, hs, rfl⟩ := (mem_recordsAgre h A).1 hA
    rw [agreRec_eq] at hp ⊢
    obtain ⟨m, hm, rfl⟩ := List.mem_map.1 hp
    obtain ⟨c, hc, rfl | rfl⟩ := index_cases m h (List.mem_range.1 hm)
    · -- aggregation switch → core switch
      rw [agrePort_odd]
      refine ⟨_, (mem_allRecords _ _).2 (Or.inr (Or.inr (Or.inr
        ((mem_recordsCore h _).2 ⟨s, c, hs, hc, rfl⟩)))), ?_,
        corePort (2 * (h : Int)) (1 + (s : Int)) (1 + (c : Int)) (1 + ((p0 : Nat) : Int)),
        ?_, ?_⟩
      · rw [coreRec_eq]
        simp only [Ident.Core.injEq, true_and]
        omega
      · rw [coreRec_eq]
        exact List.mem_map.2 ⟨p0, List.mem_range.2 hp0, rfl⟩
      · simp only [corePort, cdiv_two_mul, Ident.Aggr.injEq, true_and]
        omega
    · -- aggregation switch → edge switch
      rw [agrePort_even]
      have e1 : (1 + (p0 : Int) - 1) = (p0 : Int) := by ring
      rw [e1]
      refine ⟨_, (mem_allRecords _ _).2 (Or.inr (Or.inl
        ((mem_recordsEdge h _).2 ⟨p0, c, hp0, hc, rfl⟩))), rfl,
        edgePort p0 c _ h (2 * s),
        List.mem_map.2 ⟨2 * s, List.mem_range.2 (by omega), rfl⟩, ?_⟩
      rw [edgePort_even]
      refine ⟨by simp only; ring, rfl, by simp only; ring⟩
  · -- core switch → aggregation switch
    obtain ⟨g, c, hg, hc, rfl⟩ := (mem_recordsCore h A).1 hA
    rw [coreRec_eq] at hp ⊢
    obtain ⟨m, hm, rfl⟩ := List.mem_map.1 hp
    refine ⟨_, (mem_allRecords _ _).2 (Or.inr (Or.inr (Or.inl
      ((mem_recordsAgre h _).2 ⟨m, g, List.mem_range.1 hm, hg, rfl⟩)))), ?_,
      agrePort (2 * (h : Int)) (1 + (m : Int)) (1 + (g : Int)) (1 + ((2 * c : Nat) : Int)),
      ?_, ?_⟩
    · rw [agreRec_eq]
      simp only [corePort, cdiv_two_mul, Ident.Aggr.injEq]
      omega
    · rw [agreRec_eq]
      exact List.mem_map.2 ⟨2 * c, List.mem_range.2 (by omega), rfl⟩
    · rw [agrePort_odd]
      simp only [corePort, Ident.Core.injEq, true_and, and_true]
      omega

/-! ## Input validation -/

theorem cmod_two_of_nonneg (k : Int) (hk : 0 ≤ k) : cmod k 2 = k % 2 := by
  unfold cmod
  exact Int.tmod_eq_emod hk (by decide)

/-- The legality test of `main` rejects exactly `k < 4` and odd `k`. -/
theorem illegal_iff (k : Int) : (k < 4 ∨ cmod k 2 = 1) ↔ (k < 4 ∨ Odd k) := by
  rw [Int.odd_iff]
  by_cases h : k < 4
  · simp [h]
  · rw [cmod_two_of_nonneg k (by omega)]

/-- C4. `main` returns exit code 1 and leaves no output artifact if and only if
no argument is supplied or the parsed integer `k` is below 4 or odd (for every
signed `k`); in every other case it returns 0 after the constructor and the
four enumerators have written the artifact.  In particular `k = 3` and `k = 2`
are rejected. -/
theorem C4_input_validation (atoi : String → Int) (argv : List String) :
    (((main atoi argv).code = 1 ∧ (main atoi argv).artifact = none) ↔
      (argv.length ≤ 1 ∨ atoi (argv.getD 1 "") < 4 ∨ Odd (atoi (argv.getD 1 "")))) ∧
    (¬ (argv.length ≤ 1 ∨ atoi (argv.getD 1 "") < 4 ∨ Odd (atoi (argv.getD 1 ""))) →
      main atoi argv =
        ⟨0, [], some ((((topologie.new (atoi (argv.getD 1 ""))).printNode).printEdge).printAgre).printCore.file⟩) ∧
    (1 < argv.length → (atoi (argv.getD 1 "") = 3 ∨ atoi (argv.getD 1 "") = 2) →
      (main atoi argv).code = 1 ∧ (main atoi argv).artifact = none) := by
  have hmain : ∀ (hlen : 1 < argv.length),
      (atoi (argv.getD 1 "") < 4 ∨ Odd (atoi (argv.getD 1 ""))) →
      main atoi argv = ⟨1, ["Wrong k"], none⟩ := by
    intro hlen hk
    simp only [main, if_pos hlen, if_pos ((illegal_iff _).2 hk)]
  have hrun : ∀ (hlen : 1 < argv.length),
      ¬ (atoi (argv.getD 1 "") < 4 ∨ Odd (atoi (argv.getD 1 ""))) →
      main atoi argv =
        ⟨0, [], some ((((topologie.new (atoi (argv.getD 1 ""))).printNode).printEdge).printAgre).printCore.file⟩ := by
    intro hlen hk
    simp only [main, if_pos hlen, if_neg (fun h => hk ((illegal_iff _).1 h)),
      topologie.closeFile]
  have hnone : ¬ 1 < argv.length → main atoi argv = ⟨1, ["Not enough params"], none⟩ := by
    intro hlen
    simp only [main, if_neg hlen]
  refine ⟨⟨?_, ?_⟩, ?_, ?_⟩
  · rintro ⟨hcode, -⟩
    by_contra hcon
    have hlen : 1 < argv.length := by omega
    have hk : ¬ (atoi (argv.getD 1 "") < 4 ∨ Odd (atoi (argv.getD 1 ""))) :=
      fun h => hcon (Or.inr h)
    rw [hrun hlen hk] at hcode
    exact absurd hcode (show ¬ ((0 : Int) = 1) by decide)
  · intro h
    by_cases hlen : 1 < argv.length
    · have hk : atoi (argv.getD 1 "") < 4 ∨ Odd (atoi (argv.getD 1 "")) := by
        rcases h with h | h
        · omega
        · exact h
      rw [hmain hlen hk]
      exact ⟨rfl, rfl⟩
    · rw [hnone hlen]
      exact ⟨rfl, rfl⟩
  · intro h
    have hlen : 1 < argv.length := by
      by_contra hc
      exact h (Or.inl (by omega))
    exact hrun hlen (fun hk => h (Or.inr hk))
  · intro hlen hk
    have hk' : atoi (argv.getD 1 "") < 4 ∨ Odd (atoi (argv.getD 1 "")) := by
      rcases hk with hk | hk <;> exact Or.inl (by omega)
    rw [hmain hlen hk']
    exact ⟨rfl, rfl⟩

/-- Instance of C4: a run on the argument `4` (parsed as 4) returns 0 and
writes the artifact. -/
theorem C4_input_validation_witness :
    ¬ ((["generator", "4"] : List String).length ≤ 1 ∨
        (fun _ => (4 : Int)) ((["generator", "4"] : List String).getD 1 "") < 4 ∨
        Odd ((fun _ => (4 : Int)) ((["generator", "4"] : List String).getD 1 ""))) ∧
    main (fun _ => 4) ["generator", "4"] =
      ⟨0, [], some ((((topologie.new 4).printNode).printEdge).printAgre).printCore.file⟩ :=
  ⟨by decide, (C4_input_validation (fun _ => 4) ["generator", "4"]).2.1 (by decide)⟩

/-! ## Full bisection -/

/-- C5. For every even `k ≥ 4` and any two pods `p1`, `p2` in `[0, k)` there are
a core switch record `C` and aggregation switch records `A1` in pod `p1` and
`A2` in pod `p2` such that `C` has port lines naming `A1` and `A2`, and `A1`
and `A2` each have a port line naming `C`. -/
theorem C5_full_bisection (k : Int) (h4 : 4 ≤ k) (he : k % 2 = 0) (p1 p2 : Int)
    (h1 : 0 ≤ p1 ∧ p1 < k) (h2 : 0 ≤ p2 ∧ p2 < k) :
    ∃ C ∈ recordsCore k, ∃ A1 ∈ recordsAgre k, ∃ A2 ∈ recordsAgre k,
      (∃ s1, A1.id = Ident.Aggr p1 s1) ∧ (∃ s2, A2.id = Ident.Aggr p2 s2) ∧
      (∃ l ∈ C.lines, l.peer = A1.id) ∧ (∃ l ∈ C.lines, l.peer = A2.id) ∧
      (∃ l ∈ A1.lines, l.peer = C.id) ∧ (∃ l ∈ A2.lines, l.peer = C.id) := by
  obtain ⟨h, hh, rfl⟩ := even_param k h4 he
  obtain ⟨a, rfl⟩ := Int.eq_ofNat_of_zero_le h1.1
  obtain ⟨b, rfl⟩ := Int.eq_ofNat_of_zero_le h2.1
  have ha : a < 2 * h := by omega
  have hb : b < 2 * h := by omega
  have toAggr : ∀ p : Nat, p < 2 * h →
      ∃ l ∈ (coreRec (topologie.new (2 * (h : Int))) (1 + ((0 : Nat) : Int))
          (1 + ((0 : Nat) : Int))).lines,
        l.peer = (agreRec (topologie.new (2 * (h : Int))) (1 + (p : Int))
          (1 + ((0 : Nat) : Int))).id := by
    intro p hp
    rw [coreRec_eq, agreRec_eq]
    refine ⟨_, List.mem_map.2 ⟨p, List.mem_range.2 hp, rfl⟩, ?_⟩
    simp only [corePort, cdiv_two_mul, Ident.Aggr.injEq]
    omega
  have toCore : ∀ p : Nat, p < 2 * h →
      ∃ l ∈ (agreRec (topologie.new (2 * (h : Int))) (1 + (p : Int))
          (1 + ((0 : Nat) : Int))).lines,
        l.peer = (coreRec (topologie.new (2 * (h : Int))) (1 + ((0 : Nat) : Int))
          (1 + ((0 : Nat) : Int))).id := by
    intro p hp
    rw [coreRec_eq, agreRec_eq]
    refine ⟨agrePort (2 * (h : Int)) (1 + (p : Int)) (1 + ((0 : Nat) : Int))
      (1 + ((2 * 0 : Nat) : Int)), List.mem_map.2 ⟨2 * 0, List.mem_range.2 (by omega), rfl⟩, ?_⟩
    rw [agrePort_odd]
    simp
  refine ⟨_, (mem_recordsCore h _).2 ⟨0, 0, by omega, by omega, rfl⟩,
    _, (mem_recordsAgre h _).2 ⟨a, 0, ha, by omega, rfl⟩,
    _, (mem_recordsAgre h _).2 ⟨b, 0, hb, by omega, rfl⟩,
    ⟨_, by rw [agreRec_eq]⟩, ⟨_, by rw [agreRec_eq]⟩,
    toAggr a ha, toAggr b hb, toCore a ha, toCore b hb⟩

/-- Instance of C5 at `k = 4` for pods 0 and 3. -/
theorem C5_full_bisection_witness :
    ∃ C ∈ recordsCore 4, ∃ A1 ∈ recordsAgre 4, ∃ A2 ∈ recordsAgre 4,
      (∃ s1, A1.id = Ident.Aggr 0 s1) ∧ (∃ s2, A2.id = Ident.Aggr 3 s2) ∧
      (∃ l ∈ C.lines, l.peer = A1.id) ∧ (∃ l ∈ C.lines, l.peer = A2.id) ∧
      (∃ l ∈ A1.lines, l.peer = C.id) ∧ (∃ l ∈ A2.lines, l.peer = C.id) :=
  C5_full_bisection 4 (by decide) (by decide) 0 3 (by decide) (by decide)

/-! ## Nested loops as one range -/

theorem flatMap_range_map {β : Type} (a b : Nat) (f : Nat → Nat → β) :
    (List.range a).flatMap (fun i => (List.range b).map (f i))
      = (List.range (a * b)).map (fun n => f (n / b) (n % b)) := by
  induction a with
  | zero => simp
  | succ a ih =>
    rw [List.range_succ, List.flatMap_append, ih, List.flatMap_singleton, Nat.succ_mul,
      List.range_add, List.map_append, List.map_map]
    congr 1
    apply List.map_congr_left
    intro j hj
    have hj' : j < b := List.mem_range.1 hj
    have h1 : (a * b + j) / b = a := by
      rw [Nat.mul_comm a b, Nat.mul_add_div (by omega), Nat.div_eq_of_lt hj', Nat.add_zero]
    have h2 : (a * b + j) % b = j := by
      rw [Nat.mul_comm a b, Nat.mul_add_mod, Nat.mod_eq_of_lt hj']
    simp only [Function.comp, h1, h2]

theorem triple_range_map {β : Type} (np ne nh : Nat) (g : Nat → Nat → Nat → β) :
    (List.range np).flatMap (fun i => (List.range ne).flatMap (fun j =>
        (List.range nh).map (g i j)))
      = (List.range (np * (ne * nh))).map
          (fun n => g (n / (ne * nh)) (n % (ne * nh) / nh) (n % (ne * nh) % nh)) := by
  have inner : ∀ i, (List.range ne).flatMap (fun j => (List.range nh).map (g i j))
      = (List.range (ne * nh)).map (fun m => g i (m / nh) (m % nh)) :=
    fun i => flatMap_range_map ne nh (g i)
  simp only [inner]
  exact flatMap_range_map np (ne * nh) (fun i m => g i (m / nh) (m % nh))

theorem index_split (n q d : Nat) :
    n / q * q + n % q / d * d + n % q % d = n := by
  have h1 := Nat.div_add_mod' n q
  have h2 := Nat.div_add_mod' (n % q) d
  omega

/-- The host records in emission order, indexed by their position. -/
theorem nodeLayout_eq_range (np ne nh : Nat) :
    nodeLayout np ne nh
      = (List.range (np * (ne * nh))).map (fun (n : Nat) =>
          hostRec (n : Int) ((n / (ne * nh) : Nat) : Int) ((n % (ne * nh) / nh : Nat) : Int)
            ((n % (ne * nh) % nh : Nat) : Int)) := by
  unfold nodeLayout
  rw [triple_range_map np ne nh (fun i j t =>
    hostRec ((i : Int) * ((ne : Int) * (nh : Int)) + (j : Int) * (nh : Int) + (t : Int)) i j t)]
  apply List.map_congr_left
  intro n _
  have e := index_split n (ne * nh) nh
  have e' : ((n / (ne * nh) : Nat) : Int) * ((ne : Int) * (nh : Int))
      + ((n % (ne * nh) / nh : Nat) : Int) * (nh : Int) + ((n % (ne * nh) % nh : Nat) : Int)
      = (n : Int) := by
    exact_mod_cast e
  simp only [e']

theorem recordsNode_even (h : Nat) : recordsNode (2 * (h : Int)) = nodeLayout (2 * h) h h := by
  rw [recordsNode_eq, cdiv_two_mul, toNat_two_mul, Int.toNat_ofNat]

theorem render_two_spaces (p : PortLine) (hg : p.gap = "  ") : p.render = twoSpaceLayout p := by
  unfold PortLine.render twoSpaceLayout
  rw [hg]
  simp only [String.append_assoc]
  rfl

theorem render_one_space (p : PortLine) (hg : p.gap = " ") : p.render ≠ twoSpaceLayout p := by
  unfold PortLine.render twoSpaceLayout
  rw [hg]
  intro hcon
  have hd := congrArg String.data hcon
  simp [String.data_append] at hd

theorem edge_gap (h : Nat) (r : Record) (hr : r ∈ recordsEdge (2 * (h : Int)))
    (p : PortLine) (hp : p ∈ r.lines) : p.gap = " " := by
  obtain ⟨i, j, -, -, rfl⟩ := (mem_recordsEdge h r).1 hr
  obtain ⟨t, -, rfl⟩ := List.mem_map.1 hp
  unfold edgePort
  split <;> rfl

/-- C7 (what the code does). For `k = 4` the first port line of the first edge
record is in the output of `printEdge`, is rendered as `[1] "Aggr(0 2 1)"[2]`
with one space after the closing bracket, and so differs from the two-space
layout `[1]  "Aggr(0 2 1)"[2]`; and for every even `k ≥ 4` every port line of
every edge record differs from the two-space layout, while every port line of
every host, aggregation and core record has it. -/
theorem C7_edge_port_lines_one_space :
    (∃ r ∈ recordsEdge 4, ∃ p ∈ r.lines,
      p.render = "[1] \"Aggr(0 2 1)\"[2]" ∧
      twoSpaceLayout p = "[1]  \"Aggr(0 2 1)\"[2]" ∧ p.render ≠ twoSpaceLayout p) ∧
    (∀ k : Int, 4 ≤ k → k % 2 = 0 →
      (∀ r ∈ recordsEdge k, ∀ p ∈ r.lines, p.render ≠ twoSpaceLayout p) ∧
      (∀ r ∈ recordsNode k ++ recordsAgre k ++ recordsCore k, ∀ p ∈ r.lines,
        p.render = twoSpaceLayout p)) := by
  constructor
  · have hr : edge00 ∈ recordsEdge 4 := by decide
    exact ⟨_, hr, ⟨1, " ", Ident.Aggr 0 2, 2⟩, by simp [edge00], rfl, rfl,
      render_one_space _ rfl⟩
  · intro k h4 he
    obtain ⟨h, -, rfl⟩ := even_param k h4 he
    constructor
    · intro r hr p hp
      exact render_one_space p (edge_gap h r hr p hp)
    · intro r hr p hp
      apply render_two_spaces
      simp only [List.mem_append] at hr
      rcases hr with (hr | hr) | hr
      · obtain ⟨i, j, t, -, -, -, rfl⟩ := (mem_recordsNode h r).1 hr
        simp only [hostRec, List.mem_singleton] at hp
        rw [hp]
      · obtain ⟨i, j, -, -, rfl⟩ := (mem_recordsAgre h r).1 hr
        obtain ⟨t, -, rfl⟩ := List.mem_map.1 hp
        unfold agrePort
        split <;> rfl
      · obtain ⟨i, j, -, -, rfl⟩ := (mem_recordsCore h r).1 hr
        obtain ⟨t, -, rfl⟩ := List.mem_map.1 hp
        rfl

/-- Instance of the general part of C7 at `k = 4`: port 2 of `Edge(0 0 1)`
deviates from the two-space layout, the uplink of `Node(0)` has it. -/
theorem C7_edge_port_lines_one_space_witness :
    (edge00 ∈ recordsEdge 4 ∧
      (⟨2, " ", Ident.Node 0, 1⟩ : PortLine).render ≠ twoSpaceLayout ⟨2, " ", Ident.Node 0, 1⟩) ∧
    ((⟨Dev.Hca, 1, Ident.Node 0, [⟨1, "  ", Ident.Edge 0 0, 2⟩]⟩ : Record)
        ∈ recordsNode 4 ++ recordsAgre 4 ++ recordsCore 4 ∧
      (⟨1, "  ", Ident.Edge 0 0, 2⟩ : PortLine).render
        = twoSpaceLayout ⟨1, "  ", Ident.Edge 0 0, 2⟩) :=
  ⟨⟨by decide,
    (C7_edge_port_lines_one_space.2 4 (by decide) (by decide)).1 edge00 (by decide)
      ⟨2, " ", Ident.Node 0, 1⟩ (by decide)⟩,
   ⟨by decide,
    (C7_edge_port_lines_one_space.2 4 (by decide) (by decide)).2
      ⟨Dev.Hca, 1, Ident.Node 0, [⟨1, "  ", Ident.Edge 0 0, 2⟩]⟩ (by decide)
      ⟨1, "  ", Ident.Edge 0 0, 2⟩ (List.mem_singleton.2 rfl)⟩⟩

/-! ## Document order -/

theorem range_two_mul (h : Nat) :
    List.range (2 * h) = (List.range h).flatMap (fun s => [2 * s, 2 * s + 1]) := by
  induction h with
  | zero => rfl
  | succ h ih =>
    have e : 2 * (h + 1) = 2 * h + 1 + 1 := by ring
    rw [e, List.range_succ, List.range_succ, ih, List.range_succ, List.flatMap_append]
    simp

theorem edgeRec_hosts (pt idy : Int) (h : Nat) (c i j : Int) :
    (edgeRec pt idy (2 * h) c i j).lines.filterMap PortLine.hostIdx
      = (List.range h).map (fun (s : Nat) => c + (s : Int)) := by
  simp only [edgeRec]
  rw [range_two_mul, List.map_flatMap, List.filterMap_flatMap, List.map_eq_flatMap]
  congr 1
  funext s
  simp [edgePort_even, edgePort_odd, PortLine.hostIdx]

theorem edgeRec_aggrs (pt idy : Int) (h : Nat) (c i j : Int) :
    (edgeRec pt idy (2 * h) c i j).lines.filterMap PortLine.aggrTarget
      = (List.range h).map (fun (s : Nat) => (i, idy + (s : Int))) := by
  simp only [edgeRec]
  rw [range_two_mul, List.map_flatMap, List.filterMap_flatMap, List.map_eq_flatMap]
  congr 1
  funext s
  simp [edgePort_even, edgePort_odd, PortLine.aggrTarget]

theorem recordsEdge_even (h : Nat) :
    recordsEdge (2 * (h : Int))
      = (List.range (2 * h)).flatMap fun (i : Nat) => (List.range h).map fun (j : Nat) =>
          edgeRec (2 * (h : Int)) (h : Int) (2 * h)
            ((i : Int) * ((h : Int) * (h : Int)) + (j : Int) * (h : Int)) i j := by
  rw [recordsEdge_eq, cdiv_two_mul, toNat_two_mul, Int.toNat_ofNat, edgeLayout]
  simp only [Nat.mul_div_cancel_left h (show 0 < 2 by decide)]

/-- The host indices named by the edge records, in emission order. -/
theorem edge_host_sequence (h : Nat) :
    (recordsEdge (2 * (h : Int))).flatMap (fun E => E.lines.filterMap PortLine.hostIdx)
      = (List.range (2 * h * (h * h))).map (fun (n : Nat) => (n : Int)) := by
  rw [recordsEdge_even, List.flatMap_assoc]
  simp only [List.flatMap_map, edgeRec_hosts]
  rw [triple_range_map (2 * h) h h (fun i j s =>
    (i : Int) * ((h : Int) * (h : Int)) + (j : Int) * (h : Int) + (s : Int))]
  apply List.map_congr_left
  intro n _
  exact_mod_cast index_split n (h * h) h

theorem pow_half (h : Nat) :
    (((2 * (h : Int)) / 2) ^ 2 * (2 * (h : Int))).toNat = 2 * h * (h * h) := by
  have hdiv : (2 * (h : Int)) / 2 = (h : Int) := by omega
  have : (h : Int) ^ 2 * (2 * (h : Int)) = ((2 * h * (h * h) : Nat) : Int) := by
    push_cast
    ring
  rw [hdiv, this, Int.toNat_ofNat]

/-- Host counter agreement without range. For every even `k ≥ 4`, with the
arithmetic value of `idx`: (a) for every pod `i`, edge slot `j` and local
position `t` in range there is one index `n` such that the record of
`Edge(i j 1)` names `Node(n)` on its port `2*(t+1)` and the host record
`Node(n)` has its uplink on `Edge(i j 1)` port `(t+1)*2`; (b) whenever a host
record's uplink names an edge record and one of its ports, the port line of the
edge record at that port names this host; (c) the host indices named by
`printEdge`, in emission order, are `0, 1, 2, ...`, which is also the order in
which `printNode` assigns them. -/
theorem host_agreement_ideal (k : Int) (h4 : 4 ≤ k) (he : k % 2 = 0) :
    (∀ i j t : Nat, (i : Int) < k → (j : Int) < k / 2 → (t : Int) < k / 2 →
      ∃ n : Int,
        (∃ E ∈ recordsEdge k, E.id = Ident.Edge i j ∧
          (⟨2 * ((t : Int) + 1), " ", Ident.Node n, 1⟩ : PortLine) ∈ E.lines) ∧
        (∃ N ∈ recordsNode k, N.id = Ident.Node n ∧
          N.lines = [⟨1, "  ", Ident.Edge i j, ((t : Int) + 1) * 2⟩])) ∧
    (∀ E ∈ recordsEdge k, ∀ p ∈ E.lines, ∀ N ∈ recordsNode k, ∀ u ∈ N.lines,
      u.peer = E.id → u.peerPort = p.loc → p.peer = N.id) ∧
    (recordsEdge k).flatMap (fun E => E.lines.filterMap PortLine.hostIdx)
      = (List.range ((k / 2) ^ 2 * k).toNat).map (fun (n : Nat) => (n : Int)) ∧
    (recordsNode k).map Record.id
      = (List.range ((k / 2) ^ 2 * k).toNat).map (fun (n : Nat) => Ident.Node (n : Int)) := by
  obtain ⟨h, -, rfl⟩ := even_param k h4 he
  have hdiv : (2 * (h : Int)) / 2 = (h : Int) := by omega
  refine ⟨?_, ?_, ?_, ?_⟩
  · intro i j t hi hj ht
    rw [hdiv] at hj ht
    have hi' : i < 2 * h := by omega
    have hj' : j < h := by omega
    have ht' : t < h := by omega
    refine ⟨(i : Int) * ((h : Int) * (h : Int)) + (j : Int) * (h : Int) + (t : Int),
      ⟨_, (mem_recordsEdge h _).2 ⟨i, j, hi', hj', rfl⟩, rfl, ?_⟩,
      ⟨_, (mem_recordsNode h _).2 ⟨i, j, t, hi', hj', ht', rfl⟩, rfl, rfl⟩⟩
    refine List.mem_map.2 ⟨2 * t + 1, List.mem_range.2 (by omega), ?_⟩
    rw [edgePort_odd]
    congr 1
  · intro E hE p hp N hN u hu hpeer hport
    have hE' : E ∈ allRecords (2 * (h : Int)) := (mem_allRecords _ _).2 (Or.inr (Or.inl hE))
    have hN' : N ∈ allRecords (2 * (h : Int)) := (mem_allRecords _ _).2 (Or.inl hN)
    obtain ⟨B, hB, hid, q, hq, hloc, hqpeer, -⟩ := reverse_line_exists h N hN' u hu
    have eB : B = E := records_id_inj h B E hB hE' (hid.trans hpeer)
    subst eB
    have eq : q = p := lines_loc_inj h B hB q p hq hp (hloc.trans hport)
    subst eq
    exact hqpeer
  · rw [pow_half, edge_host_sequence]
  · rw [pow_half, recordsNode_even, nodeLayout_eq_range, List.map_map]
    rfl

/-! ## Edge uplinks -/

/-- C10. For every even `k ≥ 4`: every pod `i` in `[0,k)` and slot `j` in
`[0,k/2)` has an edge record, and every edge record `Edge(i j 1)` (a) has, for
every `s` in `[0,k/2)`, the port line with local port `2*s+1` naming
`Aggr(i, k/2+s, 1)` at port `(j+1)*2`; (b) names, in port order, exactly the
aggregation switches `(i, k/2), (i, k/2+1), ..., (i, k-1)`, each once; (c) names
an emitted aggregation record if and only if that record is in pod `i`. -/
theorem C10_edge_uplinks (k : Int) (h4 : 4 ≤ k) (he : k % 2 = 0) :
    (∀ i j : Nat, (i : Int) < k → (j : Int) < k / 2 →
      ∃ E ∈ recordsEdge k, E.id = Ident.Edge i j) ∧
    (∀ E ∈ recordsEdge k, ∃ i j : Int,
      0 ≤ i ∧ i < k ∧ 0 ≤ j ∧ j < k / 2 ∧ E.id = Ident.Edge i j ∧
      (∀ s : Nat, (s : Int) < k / 2 →
        (⟨2 * (s : Int) + 1, " ", Ident.Aggr i (k / 2 + (s : Int)), (j + 1) * 2⟩ : PortLine)
          ∈ E.lines) ∧
      E.lines.filterMap PortLine.aggrTarget
        = (List.range (k / 2).toNat).map (fun (s : Nat) => (i, k / 2 + (s : Int))) ∧
      (∀ A ∈ recordsAgre k, (∃ p ∈ E.lines, p.peer = A.id) ↔ ∃ s, A.id = Ident.Aggr i s)) := by
  obtain ⟨h, -, rfl⟩ := even_param k h4 he
  have hdiv : (2 * (h : Int)) / 2 = (h : Int) := by omega
  rw [hdiv]
  constructor
  · intro i j hi hj
    exact ⟨_, (mem_recordsEdge h _).2 ⟨i, j, by omega, by omega, rfl⟩, rfl⟩
  · intro E hE
    obtain ⟨i, j, hi, hj, rfl⟩ := (mem_recordsEdge h E).1 hE
    refine ⟨i, j, by omega, by omega, by omega, by omega, rfl, ?_, ?_, ?_⟩
    · intro s hs
      refine List.mem_map.2 ⟨2 * s, List.mem_range.2 (by omega), ?_⟩
      rw [edgePort_even]
    · rw [edgeRec_aggrs, Int.toNat_ofNat]
    · intro A hA
      obtain ⟨p0, s0, hp0, hs0, rfl⟩ := (mem_recordsAgre h A).1 hA
      rw [agreRec_eq]
      constructor
      · rintro ⟨p, hp, hpeer⟩
        obtain ⟨t, ht, rfl⟩ := List.mem_map.1 hp
        obtain ⟨s, -, rfl | rfl⟩ := index_cases t h (List.mem_range.1 ht)
        · rw [edgePort_even] at hpeer
          simp only [Ident.Aggr.injEq] at hpeer
          exact ⟨_, by rw [hpeer.1]⟩
        · rw [edgePort_odd] at hpeer
          simp at hpeer
      · rintro ⟨s, hs⟩
        simp only [Ident.Aggr.injEq] at hs
        refine ⟨_, List.mem_map.2 ⟨2 * s0, List.mem_range.2 (by omega), rfl⟩, ?_⟩
        rw [edgePort_even, hs.1]

/-- Instance of C10 at `k = 4`: the record of `Edge(0 0 1)`. -/
theorem C10_edge_uplinks_witness :
    edge00 ∈ recordsEdge 4 ∧
    ∃ i j : Int,
      0 ≤ i ∧ i < 4 ∧ 0 ≤ j ∧ j < (4 : Int) / 2 ∧ edge00.id = Ident.Edge i j ∧
      (∀ s : Nat, (s : Int) < (4 : Int) / 2 →
        (⟨2 * (s : Int) + 1, " ", Ident.Aggr i ((4 : Int) / 2 + (s : Int)), (j + 1) * 2⟩ : PortLine)
          ∈ edge00.lines) ∧
      edge00.lines.filterMap PortLine.aggrTarget
        = (List.range ((4 : Int) / 2).toNat).map (fun (s : Nat) => (i, (4 : Int) / 2 + (s : Int))) ∧
      (∀ A ∈ recordsAgre 4, (∃ p ∈ edge00.lines, p.peer = A.id) ↔ ∃ s, A.id = Ident.Aggr i s) :=
  ⟨by decide, (C10_edge_uplinks 4 (by decide) (by decide)).2 edge00 (by decide)⟩

/-! ## Port parity -/

theorem edgeRec_portsTo_aggr (pt idy : Int) (h : Nat) (c i j : Int) :
    (edgeRec pt idy (2 * h) c i j).portsTo Kind.aggr
      = (List.range h).map (fun (s : Nat) => 2 * (s : Int) + 1) := by
  simp only [edgeRec, Record.portsTo]
  rw [range_two_mul, List.map_flatMap, List.filter_flatMap, List.map_flatMap,
    List.map_eq_flatMap]
  congr 1
  funext s
  simp [edgePort_even, edgePort_odd, Ident.kind]

theorem edgeRec_portsTo_node (pt idy : Int) (h : Nat) (c i j : Int) :
    (edgeRec pt idy (2 * h) c i j).portsTo Kind.node
      = (List.range h).map (fun (s : Nat) => 2 * (s : Int) + 2) := by
  simp only [edgeRec, Record.portsTo]
  rw [range_two_mul, List.map_flatMap, List.filter_flatMap, List.map_flatMap,
    List.map_eq_flatMap]
  congr 1
  funext s
  simp [edgePort_even, edgePort_odd, Ident.kind]

theorem agre_portsTo_core (k i j : Int) (h : Nat) :
    (Record.mk Dev.Switch k (Ident.Aggr i j)
        ((List.range (2 * h)).map fun (m : Nat) => agrePort k i j (1 + (m : Int)))).portsTo
        Kind.core
      = (List.range h).map (fun (s : Nat) => 2 * (s : Int) + 1) := by
  simp only [Record.portsTo]
  rw [range_two_mul, List.map_flatMap, List.filter_flatMap, List.map_flatMap,
    List.map_eq_flatMap]
  congr 1
  funext s
  simp only [List.map_cons, List.map_nil, agrePort_odd, agrePort_even]
  simp [Ident.kind]

theorem agre_portsTo_edge (k i j : Int) (h : Nat) :
    (Record.mk Dev.Switch k (Ident.Aggr i j)
        ((List.range (2 * h)).map fun (m : Nat) => agrePort k i j (1 + (m : Int)))).portsTo
        Kind.edge
      = (List.range h).map (fun (s : Nat) => 2 * (s : Int) + 2) := by
  simp only [Record.portsTo]
  rw [range_two_mul, List.map_flatMap, List.filter_flatMap, List.map_flatMap,
    List.map_eq_flatMap]
  congr 1
  funext s
  simp only [List.map_cons, List.map_nil, agrePort_odd, agrePort_even]
  simp [Ident.kind]

theorem core_portsTo_aggr (T : topologie) (i j : Int) :
    (coreRec T i j).portsTo Kind.aggr
      = (List.range T.k.toNat).map (fun (m : Nat) => (m : Int) + 1) := by
  have hall : ∀ p ∈ (coreRec T i j).lines, decide (p.peer.kind = Kind.aggr) = true := by
    intro p hp
    obtain ⟨m, -, rfl⟩ := List.mem_map.1 hp
    rfl
  rw [Record.portsTo, List.filter_eq_self.2 hall]
  exact coreRec_locs T i j

/-- C11. For every even `k ≥ 4`: in every edge record a port line with odd local
port names an `Aggr` peer and one with even local port names a `Node` peer, the
ports naming `Aggr` peers are `1, 3, ..., k-1` and those naming `Node` peers are
`2, 4, ..., k` (`k/2` of each); in every aggregation record odd ports name a
`Core` peer and even ports an `Edge` peer, with the same two port lists; in
every core record all port lines, on ports `1, ..., k`, name an `Aggr` peer. -/
theorem C11_port_parity (k : Int) (h4 : 4 ≤ k) (he : k % 2 = 0) :
    (∀ r ∈ recordsEdge k,
      (∀ p ∈ r.lines, (p.loc % 2 = 1 → p.peer.kind = Kind.aggr) ∧
        (p.loc % 2 = 0 → p.peer.kind = Kind.node)) ∧
      r.portsTo Kind.aggr = (List.range (k / 2).toNat).map (fun (s : Nat) => 2 * (s : Int) + 1) ∧
      r.portsTo Kind.node = (List.range (k / 2).toNat).map (fun (s : Nat) => 2 * (s : Int) + 2)) ∧
    (∀ r ∈ recordsAgre k,
      (∀ p ∈ r.lines, (p.loc % 2 = 1 → p.peer.kind = Kind.core) ∧
        (p.loc % 2 = 0 → p.peer.kind = Kind.edge)) ∧
      r.portsTo Kind.core = (List.range (k / 2).toNat).map (fun (s : Nat) => 2 * (s : Int) + 1) ∧
      r.portsTo Kind.edge = (List.range (k / 2).toNat).map (fun (s : Nat) => 2 * (s : Int) + 2)) ∧
    (∀ r ∈ recordsCore k,
      (∀ p ∈ r.lines, p.peer.kind = Kind.aggr) ∧
      r.portsTo Kind.aggr = (List.range k.toNat).map (fun (m : Nat) => (m : Int) + 1)) := by
  obtain ⟨h, -, rfl⟩ := even_param k h4 he
  have hdiv : (2 * (h : Int)) / 2 = (h : Int) := by omega
  rw [hdiv, Int.toNat_ofNat, toNat_two_mul]
  refine ⟨?_, ?_, ?_⟩
  · intro r hr
    obtain ⟨i, j, -, -, rfl⟩ := (mem_recordsEdge h r).1 hr
    refine ⟨?_, edgeRec_portsTo_aggr _ _ _ _ _ _, edgeRec_portsTo_node _ _ _ _ _ _⟩
    intro p hp
    obtain ⟨t, ht, rfl⟩ := List.mem_map.1 hp
    obtain ⟨s, -, rfl | rfl⟩ := index_cases t h (List.mem_range.1 ht)
    · rw [edgePort_even]
      exact ⟨fun _ => rfl, fun hc => by simp only at hc; omega⟩
    · rw [edgePort_odd]
      exact ⟨fun hc => by simp only at hc; omega, fun _ => rfl⟩
  · intro r hr
    obtain ⟨p0, s0, -, -, rfl⟩ := (mem_recordsAgre h r).1 hr
    rw [agreRec_eq]
    refine ⟨?_, agre_portsTo_core _ _ _ _, agre_portsTo_edge _ _ _ _⟩
    intro p hp
    obtain ⟨m, hm, rfl⟩ := List.mem_map.1 hp
    obtain ⟨c, -, rfl | rfl⟩ := index_cases m h (List.mem_range.1 hm)
    · rw [agrePort_odd]
      exact ⟨fun _ => rfl, fun hc => by simp only at hc; omega⟩
    · rw [agrePort_even]
      exact ⟨fun hc => by simp only at hc; omega, fun _ => rfl⟩
  · intro r hr
    obtain ⟨g, c, -, -, rfl⟩ := (mem_recordsCore h r).1 hr
    refine ⟨?_, ?_⟩
    · intro p hp
      obtain ⟨m, -, rfl⟩ := List.mem_map.1 hp
      rfl
    · have e := core_portsTo_aggr (topologie.new (2 * (h : Int))) (1 + (g : Int)) (1 + (c : Int))
      simpa only [topologie.new, toNat_two_mul] using e

/-- Instance of C11 at `k = 4`: the record of `Edge(0 0 1)`. -/
theorem C11_port_parity_witness :
    edge00 ∈ recordsEdge 4 ∧
    (∀ p ∈ edge00.lines, (p.loc % 2 = 1 → p.peer.kind = Kind.aggr) ∧
      (p.loc % 2 = 0 → p.peer.kind = Kind.node)) ∧
    edge00.portsTo Kind.aggr
      = (List.range ((4 : Int) / 2).toNat).map (fun (s : Nat) => 2 * (s : Int) + 1) ∧
    edge00.portsTo Kind.node
      = (List.range ((4 : Int) / 2).toNat).map (fun (s : Nat) => 2 * (s : Int) + 2) :=
  ⟨by decide, (C11_port_parity 4 (by decide) (by decide)).1 edge00 (by decide)⟩

/-! ## Aggregation switches and core groups -/

theorem agre_cores (k i j : Int) (h : Nat) :
    ((List.range (2 * h)).map fun (m : Nat) => agrePort k i j (1 + (m : Int))).filterMap
        PortLine.coreTarget
      = (List.range h).map (fun (c : Nat) => (k, j, (c : Int) + 1)) := by
  rw [range_two_mul, List.map_flatMap, List.filterMap_flatMap, List.map_eq_flatMap]
  congr 1
  funext s
  simp only [List.map_cons, List.map_nil, agrePort_odd, agrePort_even]
  simp [PortLine.coreTarget]

/-- C12. For every even `k ≥ 4`: every pod `p` in `[0,k)` and `s` in `[0,k/2)` has
an aggregation record `Aggr(p, k/2+s, 1)`, and every aggregation record is of
this form and (a) has, for every `c` in `[1,k/2]`, the port line with local port
`2*c-1` naming `Core(k, s+1, c)` at core port `p+1`; (b) names, in port order,
exactly the core switches `(k, s+1, 1), ..., (k, s+1, k/2)`, each once; (c) names
an emitted core record if and only if that record is in group `s+1`; (d) every
core identity it names has group and index in `[1,k/2]` and is named at a core
port in `[1,k]`. -/
theorem C12_aggr_core_grouping (k : Int) (h4 : 4 ≤ k) (he : k % 2 = 0) :
    (∀ p s : Nat, (p : Int) < k → (s : Int) < k / 2 →
      ∃ A ∈ recordsAgre k, A.id = Ident.Aggr p (k / 2 + (s : Int))) ∧
    (∀ A ∈ recordsAgre k, ∃ p s : Int,
      0 ≤ p ∧ p < k ∧ 0 ≤ s ∧ s < k / 2 ∧ A.id = Ident.Aggr p (k / 2 + s) ∧
      (∀ c : Int, 1 ≤ c → c ≤ k / 2 →
        (⟨2 * c - 1, "  ", Ident.Core k (s + 1) c, p + 1⟩ : PortLine) ∈ A.lines) ∧
      A.lines.filterMap PortLine.coreTarget
        = (List.range (k / 2).toNat).map (fun (c : Nat) => (k, s + 1, (c : Int) + 1)) ∧
      (∀ C ∈ recordsCore k, (∃ l ∈ A.lines, l.peer = C.id) ↔ ∃ c, C.id = Ident.Core k (s + 1) c) ∧
      (∀ l ∈ A.lines, ∀ k' g c : Int, l.peer = Ident.Core k' g c →
        1 ≤ g ∧ g ≤ k / 2 ∧ 1 ≤ c ∧ c ≤ k / 2 ∧ 1 ≤ l.peerPort ∧ l.peerPort ≤ k)) := by
  obtain ⟨h, -, rfl⟩ := even_param k h4 he
  have hdiv : (2 * (h : Int)) / 2 = (h : Int) := by omega
  rw [hdiv]
  constructor
  · intro p s hp hs
    refine ⟨_, (mem_recordsAgre h _).2 ⟨p, s, by omega, by omega, rfl⟩, ?_⟩
    rw [agreRec_eq]
  · intro A hA
    obtain ⟨p0, s0, hp0, hs0, rfl⟩ := (mem_recordsAgre h A).1 hA
    rw [agreRec_eq]
    have hj : (1 + (s0 : Int)) = (s0 : Int) + 1 := add_comm _ _
    have hi : (1 + (p0 : Int)) = (p0 : Int) + 1 := add_comm _ _
    rw [hj, hi]
    refine ⟨p0, s0, by omega, by omega, by omega, by omega, rfl, ?_, ?_, ?_, ?_⟩
    · intro c hc1 hc2
      obtain ⟨c', rfl⟩ : ∃ c' : Nat, c = (c' : Int) + 1 := ⟨(c - 1).toNat, by omega⟩
      refine List.mem_map.2 ⟨2 * c', List.mem_range.2 (by omega), ?_⟩
      rw [agrePort_odd]
      congr 1
      ring
    · rw [agre_cores, Int.toNat_ofNat]
    · intro C hC
      obtain ⟨g, c0, hg, hc0, rfl⟩ := (mem_recordsCore h C).1 hC
      rw [coreRec_eq]
      constructor
      · rintro ⟨l, hl, hpeer⟩
        obtain ⟨m, hm, rfl⟩ := List.mem_map.1 hl
        obtain ⟨c, -, rfl | rfl⟩ := index_cases m h (List.mem_range.1 hm)
        · rw [agrePort_odd] at hpeer
          simp only [Ident.Core.injEq, true_and] at hpeer
          exact ⟨_, by rw [hpeer.1]⟩
        · rw [agrePort_even] at hpeer
          simp at hpeer
      · rintro ⟨c, hc⟩
        simp only [Ident.Core.injEq, true_and] at hc
        refine ⟨_, List.mem_map.2 ⟨2 * c0, List.mem_range.2 (by omega), rfl⟩, ?_⟩
        rw [agrePort_odd]
        simp only [Ident.Core.injEq, true_and]
        omega
    · intro l hl k' g c hpeer
      obtain ⟨m, hm, rfl⟩ := List.mem_map.1 hl
      obtain ⟨c1, hc1, rfl | rfl⟩ := index_cases m h (List.mem_range.1 hm)
      · rw [agrePort_odd] at hpeer ⊢
        simp only [Ident.Core.injEq] at hpeer
        simp only
        omega
      · rw [agrePort_even] at hpeer
        simp at hpeer

/-- Instance of C12 at `k = 4`: the record of `Aggr(3 3 1)`. -/
theorem C12_aggr_core_grouping_witness :
    aggr33 ∈ recordsAgre 4 ∧
    ∃ p s : Int,
      0 ≤ p ∧ p < 4 ∧ 0 ≤ s ∧ s < (4 : Int) / 2 ∧ aggr33.id = Ident.Aggr p ((4 : Int) / 2 + s) ∧
      (∀ c : Int, 1 ≤ c → c ≤ (4 : Int) / 2 →
        (⟨2 * c - 1, "  ", Ident.Core 4 (s + 1) c, p + 1⟩ : PortLine) ∈ aggr33.lines) ∧
      aggr33.lines.filterMap PortLine.coreTarget
        = (List.range ((4 : Int) / 2).toNat).map (fun (c : Nat) => ((4 : Int), s + 1, (c : Int) + 1)) ∧
      (∀ C ∈ recordsCore 4,
        (∃ l ∈ aggr33.lines, l.peer = C.id) ↔ ∃ c, C.id = Ident.Core 4 (s + 1) c) ∧
      (∀ l ∈ aggr33.lines, ∀ k' g c : Int, l.peer = Ident.Core k' g c →
        1 ≤ g ∧ g ≤ (4 : Int) / 2 ∧ 1 ≤ c ∧ c ≤ (4 : Int) / 2 ∧ 1 ≤ l.peerPort ∧ l.peerPort ≤ 4) :=
  ⟨by decide, (C12_aggr_core_grouping 4 (by decide) (by decide)).2 aggr33 (by decide)⟩

/-! ## Core switches -/

theorem coreRec_lines (h g c : Nat) :
    (coreRec (topologie.new (2 * (h : Int))) (1 + (g : Int)) (1 + (c : Int))).lines
      = (List.range (2 * h)).map (fun (m : Nat) =>
          (⟨(m : Int) + 1, "  ", Ident.Aggr (m : Int) ((h : Int) + (1 + (g : Int)) - 1),
            2 * (1 + (c : Int)) - 1⟩ : PortLine)) := by
  rw [coreRec_eq]
  apply List.map_congr_left
  intro m _
  simp only [corePort, cdiv_two_mul]
  congr 1
  · ring
  · congr 1
    ring

/-- C13. For every even `k ≥ 4`: every group `g` and index `c` in `[1,k/2]` has a
core record `Core(k g c)`, and every core record is of this form and (a) its
port lines are, for `m = 1, ..., k` in this order, port `m` naming
`Aggr(m-1, k/2+g-1, 1)` at aggregation port `2*c-1`; (b) it names, in port
order, the aggregation switches `(0, k/2+g-1), ..., (k-1, k/2+g-1)`, one per pod;
(c) it names an emitted aggregation record if and only if that record has slot
`k/2+g-1`. -/
theorem C13_core_one_per_pod (k : Int) (h4 : 4 ≤ k) (he : k % 2 = 0) :
    (∀ g c : Int, 1 ≤ g → g ≤ k / 2 → 1 ≤ c → c ≤ k / 2 →
      ∃ C ∈ recordsCore k, C.id = Ident.Core k g c) ∧
    (∀ C ∈ recordsCore k, ∃ g c : Int,
      1 ≤ g ∧ g ≤ k / 2 ∧ 1 ≤ c ∧ c ≤ k / 2 ∧ C.id = Ident.Core k g c ∧
      C.lines = (List.range k.toNat).map (fun (m : Nat) =>
        (⟨(m : Int) + 1, "  ", Ident.Aggr (m : Int) (k / 2 + g - 1), 2 * c - 1⟩ : PortLine)) ∧
      C.lines.filterMap PortLine.aggrTarget
        = (List.range k.toNat).map (fun (m : Nat) => ((m : Int), k / 2 + g - 1)) ∧
      (∀ A ∈ recordsAgre k,
        (∃ l ∈ C.lines, l.peer = A.id) ↔ ∃ pod, A.id = Ident.Aggr pod (k / 2 + g - 1))) := by
  obtain ⟨h, -, rfl⟩ := even_param k h4 he
  have hdiv : (2 * (h : Int)) / 2 = (h : Int) := by omega
  rw [hdiv, toNat_two_mul]
  constructor
  · intro g c hg1 hg2 hc1 hc2
    obtain ⟨g', rfl⟩ : ∃ g' : Nat, g = 1 + (g' : Int) := ⟨(g - 1).toNat, by omega⟩
    obtain ⟨c', rfl⟩ : ∃ c' : Nat, c = 1 + (c' : Int) := ⟨(c - 1).toNat, by omega⟩
    refine ⟨_, (mem_recordsCore h _).2 ⟨g', c', by omega, by omega, rfl⟩, ?_⟩
    rw [coreRec_eq]
  · intro C hC
    obtain ⟨g, c, hg, hc, rfl⟩ := (mem_recordsCore h C).1 hC
    have hl := coreRec_lines h g c
    refine ⟨1 + (g : Int), 1 + (c : Int), by omega, by omega, by omega, by omega,
      by rw [coreRec_eq], hl, ?_, ?_⟩
    · rw [hl, List.filterMap_map]
      exact congrFun (List.filterMap_eq_map _) _
    · intro A hA
      obtain ⟨p0, s0, hp0, hs0, rfl⟩ := (mem_recordsAgre h A).1 hA
      rw [agreRec_eq, hl]
      constructor
      · rintro ⟨l, hmem, hpeer⟩
        obtain ⟨m, -, rfl⟩ := List.mem_map.1 hmem
        simp only [Ident.Aggr.injEq] at hpeer
        exact ⟨p0, by rw [hpeer.2]⟩
      · rintro ⟨pod, hpod⟩
        simp only [Ident.Aggr.injEq] at hpod
        refine ⟨_, List.mem_map.2 ⟨p0, List.mem_range.2 hp0, rfl⟩, ?_⟩
        simp only [Ident.Aggr.injEq, true_and]
        exact hpod.2.symm

set_option maxRecDepth 8000 in
/-- Instance of C13 at `k = 4`: the record of `Core(4 2 1)`. -/
theorem C13_core_one_per_pod_witness :
    core21 ∈ recordsCore 4 ∧
    ∃ g c : Int,
      1 ≤ g ∧ g ≤ (4 : Int) / 2 ∧ 1 ≤ c ∧ c ≤ (4 : Int) / 2 ∧ core21.id = Ident.Core 4 g c ∧
      core21.lines = (List.range (4 : Int).toNat).map (fun (m : Nat) =>
        (⟨(m : Int) + 1, "  ", Ident.Aggr (m : Int) ((4 : Int) / 2 + g - 1), 2 * c - 1⟩ : PortLine)) ∧
      core21.lines.filterMap PortLine.aggrTarget
        = (List.range (4 : Int).toNat).map (fun (m : Nat) => ((m : Int), (4 : Int) / 2 + g - 1)) ∧
      (∀ A ∈ recordsAgre 4,
        (∃ l ∈ core21.lines, l.peer = A.id) ↔ ∃ pod, A.id = Ident.Aggr pod ((4 : Int) / 2 + g - 1)) :=
  ⟨by decide, (C13_core_one_per_pod 4 (by decide) (by decide)).2 core21 (by decide)⟩

/-! ## Identities in emission order -/

theorem nodup_grid {β : Type} (a b : Nat) (f : Nat → Nat → β)
    (hinj : ∀ i j i' j', f i j = f i' j' → i = i' ∧ j = j') :
    ((List.range a).flatMap (fun i => (List.range b).map (f i))).Nodup := by
  rw [flatMap_range_map]
  apply List.Nodup.map_on _ (List.nodup_range _)
  intro x _ y _ e
  obtain ⟨e1, e2⟩ := hinj _ _ _ _ e
  rw [← Nat.div_add_mod x b, ← Nat.div_add_mod y b, e1, e2]

theorem node_ids (h : Nat) :
    (recordsNode (2 * (h : Int))).map Record.id
      = (List.range (2 * h * (h * h))).map (fun (n : Nat) => Ident.Node (n : Int)) := by
  rw [recordsNode_even, nodeLayout_eq_range, List.map_map]
  rfl

theorem edge_ids (h : Nat) :
    (recordsEdge (2 * (h : Int))).map Record.id
      = (List.range (2 * h)).flatMap (fun (i : Nat) =>
          (List.range h).map (fun (j : Nat) => Ident.Edge (i : Int) (j : Int))) := by
  rw [recordsEdge_even, List.map_flatMap]
  simp only [List.map_map]
  rfl

theorem agre_ids (h : Nat) :
    (recordsAgre (2 * (h : Int))).map Record.id
      = (List.range (2 * h)).flatMap (fun (p : Nat) =>
          (List.range h).map (fun (s : Nat) => Ident.Aggr (p : Int) ((h : Int) + (s : Int)))) := by
  rw [recordsAgre_eq, agreLayout, List.map_flatMap]
  simp only [List.map_map, topologie.new, cdiv_two_mul, toNat_two_mul, Int.toNat_ofNat]
  congr 1
  funext p
  apply List.map_congr_left
  intro s _
  have e := congrArg Record.id (agreRec_eq h p s)
  simpa only [topologie.new] using e

theorem core_ids (h : Nat) :
    (recordsCore (2 * (h : Int))).map Record.id
      = (List.range h).flatMap (fun (g : Nat) =>
          (List.range h).map (fun (c : Nat) =>
            Ident.Core (2 * (h : Int)) (1 + (g : Int)) (1 + (c : Int)))) := by
  rw [recordsCore_eq, coreLayout, List.map_flatMap]
  simp only [List.map_map, topologie.new, cdiv_two_mul, toNat_two_mul, Int.toNat_ofNat]
  rfl

theorem node_ids_nodup (h : Nat) : ((recordsNode (2 * (h : Int))).map Record.id).Nodup := by
  rw [node_ids]
  apply List.Nodup.map _ (List.nodup_range _)
  intro a b hab
  simpa using hab

theorem edge_ids_nodup (h : Nat) : ((recordsEdge (2 * (h : Int))).map Record.id).Nodup := by
  rw [edge_ids]
  apply nodup_grid
  intro i j i' j' e
  simpa using e

theorem agre_ids_nodup (h : Nat) : ((recordsAgre (2 * (h : Int))).map Record.id).Nodup := by
  rw [agre_ids]
  apply nodup_grid
  intro i j i' j' e
  simpa using e

theorem core_ids_nodup (h : Nat) : ((recordsCore (2 * (h : Int))).map Record.id).Nodup := by
  rw [core_ids]
  apply nodup_grid
  intro i j i' j' e
  simpa using e

theorem kind_node (h : Nat) (r : Record) (hr : r ∈ recordsNode (2 * (h : Int))) :
    r.id.kind = Kind.node := by
  obtain ⟨i, j, t, -, -, -, rfl⟩ := (mem_recordsNode h r).1 hr
  rfl

theorem kind_edge (h : Nat) (r : Record) (hr : r ∈ recordsEdge (2 * (h : Int))) :
    r.id.kind = Kind.edge := by
  obtain ⟨i, j, -, -, rfl⟩ := (mem_recordsEdge h r).1 hr
  rfl

theorem kind_aggr (h : Nat) (r : Record) (hr : r ∈ recordsAgre (2 * (h : Int))) :
    r.id.kind = Kind.aggr := by
  obtain ⟨i, j, -, -, rfl⟩ := (mem_recordsAgre h r).1 hr
  rfl

theorem kind_core (h : Nat) (r : Record) (hr : r ∈ recordsCore (2 * (h : Int))) :
    r.id.kind = Kind.core := by
  obtain ⟨i, j, -, -, rfl⟩ := (mem_recordsCore h r).1 hr
  rfl

theorem ids_disjoint (l₁ l₂ : List Record) (κ₁ κ₂ : Kind) (hκ : κ₁ ≠ κ₂)
    (h₁ : ∀ r ∈ l₁, r.id.kind = κ₁) (h₂ : ∀ r ∈ l₂, r.id.kind = κ₂) :
    List.Disjoint (l₁.map Record.id) (l₂.map Record.id) := by
  intro x hx hy
  obtain ⟨r, hr, rfl⟩ := List.mem_map.1 hx
  obtain ⟨r', hr', e⟩ := List.mem_map.1 hy
  apply hκ
  rw [← h₁ r hr, ← h₂ r' hr', e]

/-- The identities of all records of a run are pairwise distinct. -/
theorem all_ids_nodup (h : Nat) : ((allRecords (2 * (h : Int))).map Record.id).Nodup := by
  simp only [allRecords, List.map_append]
  have dN := node_ids_nodup h
  have dE := edge_ids_nodup h
  have dA := agre_ids_nodup h
  have dC := core_ids_nodup h
  have kN := kind_node h
  have kE := kind_edge h
  have kA := kind_aggr h
  have kC := kind_core h
  have d1 := ids_disjoint _ _ Kind.node Kind.edge (by decide) kN kE
  have d2 := ids_disjoint _ _ Kind.node Kind.aggr (by decide) kN kA
  have d3 := ids_disjoint _ _ Kind.edge Kind.aggr (by decide) kE kA
  have d4 := ids_disjoint _ _ Kind.node Kind.core (by decide) kN kC
  have d5 := ids_disjoint _ _ Kind.edge Kind.core (by decide) kE kC
  have d6 := ids_disjoint _ _ Kind.aggr Kind.core (by decide) kA kC
  exact List.Nodup.append
    (List.Nodup.append (List.Nodup.append dN dE d1) dA (List.disjoint_append_left.2 ⟨d2, d3⟩))
    dC (List.disjoint_append_left.2 ⟨List.disjoint_append_left.2 ⟨d4, d5⟩, d6⟩)

/-! ## Aggregation slots -/

/-- C14. For every even `k ≥ 4`: the identities of the aggregation records are,
in emission order, `Aggr(p, k/2+s, 1)` for `p = 0..k-1` and `s = 0..k/2-1`; so
every aggregation record has pod in `[0,k-1]` and slot in `[k/2,k-1]`, and every
such pair is the identity of exactly one emitted record.  Every edge record has
slot in `[0,k/2-1]`, every such slot occurs, and no edge slot equals an
aggregation slot. -/
theorem C14_aggr_slot_range (k : Int) (h4 : 4 ≤ k) (he : k % 2 = 0) :
    (recordsAgre k).map Record.id
      = (List.range k.toNat).flatMap (fun (p : Nat) =>
          (List.range (k / 2).toNat).map (fun (s : Nat) =>
            Ident.Aggr (p : Int) (k / 2 + (s : Int)))) ∧
    (∀ A ∈ recordsAgre k, ∃ p s : Int,
      A.id = Ident.Aggr p s ∧ 0 ≤ p ∧ p ≤ k - 1 ∧ k / 2 ≤ s ∧ s ≤ k - 1) ∧
    (∀ p s : Int, 0 ≤ p → p ≤ k - 1 → k / 2 ≤ s → s ≤ k - 1 →
      ((recordsAgre k).map Record.id).count (Ident.Aggr p s) = 1) ∧
    (∀ E ∈ recordsEdge k, ∃ i j : Int, E.id = Ident.Edge i j ∧ 0 ≤ j ∧ j ≤ k / 2 - 1) ∧
    (∀ j : Int, 0 ≤ j → j ≤ k / 2 - 1 → ∃ E ∈ recordsEdge k, ∃ i, E.id = Ident.Edge i j) ∧
    (∀ E ∈ recordsEdge k, ∀ A ∈ recordsAgre k, ∀ i j p s : Int,
      E.id = Ident.Edge i j → A.id = Ident.Aggr p s → j ≠ s) := by
  obtain ⟨h, hh, rfl⟩ := even_param k h4 he
  have hdiv : (2 * (h : Int)) / 2 = (h : Int) := by omega
  rw [hdiv, toNat_two_mul, Int.toNat_ofNat]
  refine ⟨agre_ids h, ?_, ?_, ?_, ?_, ?_⟩
  · intro A hA
    obtain ⟨p0, s0, hp0, hs0, rfl⟩ := (mem_recordsAgre h A).1 hA
    rw [agreRec_eq]
    exact ⟨p0, (h : Int) + (s0 : Int), rfl, by omega, by omega, by omega, by omega⟩
  · intro p s hp1 hp2 hs1 hs2
    apply List.count_eq_one_of_mem (agre_ids_nodup h)
    obtain ⟨p', rfl⟩ := Int.eq_ofNat_of_zero_le hp1
    obtain ⟨s', rfl⟩ : ∃ s' : Nat, s = (h : Int) + (s' : Int) := ⟨(s - h).toNat, by omega⟩
    refine List.mem_map.2 ⟨_, (mem_recordsAgre h _).2 ⟨p', s', by omega, by omega, rfl⟩, ?_⟩
    rw [agreRec_eq]
  · intro E hE
    obtain ⟨i, j, -, hj, rfl⟩ := (mem_recordsEdge h E).1 hE
    exact ⟨i, j, rfl, by omega, by omega⟩
  · intro j hj1 hj2
    obtain ⟨j', rfl⟩ := Int.eq_ofNat_of_zero_le hj1
    exact ⟨_, (mem_recordsEdge h _).2 ⟨0, j', by omega, by omega, rfl⟩, _, rfl⟩
  · intro E hE A hA i j p s hEid hAid
    obtain ⟨i0, j0, -, hj0, rfl⟩ := (mem_recordsEdge h E).1 hE
    obtain ⟨p0, s0, -, -, rfl⟩ := (mem_recordsAgre h A).1 hA
    rw [agreRec_eq] at hAid
    simp only [edgeRec, Ident.Edge.injEq] at hEid
    simp only [Ident.Aggr.injEq] at hAid
    omega

/-- Instance of C14 at `k = 4`. -/
theorem C14_aggr_slot_range_witness :
    (recordsAgre 4).map Record.id
      = (List.range (4 : Int).toNat).flatMap (fun (p : Nat) =>
          (List.range ((4 : Int) / 2).toNat).map (fun (s : Nat) =>
            Ident.Aggr (p : Int) ((4 : Int) / 2 + (s : Int)))) ∧
    ((recordsAgre 4).map Record.id).count (Ident.Aggr 3 3) = 1 :=
  ⟨(C14_aggr_slot_range 4 (by decide) (by decide)).1,
   (C14_aggr_slot_range 4 (by decide) (by decide)).2.2.1 3 3
     (by decide) (by decide) (by decide) (by decide)⟩

/-! ## No duplicate ports -/

/-- An odd `k ≥ 3` is `2 * h + 1` with `h ≥ 1`. -/
theorem odd_param (k : Int) (h3 : 3 ≤ k) (ho : k % 2 = 1) :
    ∃ h : Nat, 1 ≤ h ∧ k = 2 * (h : Int) + 1 :=
  ⟨(k / 2).toNat, by omega, by omega⟩

theorem cdiv_two_mul_succ (h : Nat) : cdiv (2 * (h : Int) + 1) 2 = (h : Int) := by
  have e : (2 * (h : Int) + 1) = ((2 * h + 1 : Nat) : Int) := by push_cast; ring
  rw [e, cdiv_two_nat]
  congr 1
  omega

theorem toNat_two_mul_succ (h : Nat) : (2 * (h : Int) + 1).toNat = 2 * h + 1 := by omega

theorem mem_recordsEdge_odd (h : Nat) (r : Record) :
    r ∈ recordsEdge (2 * (h : Int) + 1) ↔
      ∃ i j : Nat, i < 2 * h + 1 ∧ j < h ∧
        r = edgeRec (2 * (h : Int) + 1) (h : Int) (2 * h + 1)
              ((i : Int) * ((h : Int) * (h : Int)) + (j : Int) * (h : Int)) i j := by
  have hd : (2 * h + 1) / 2 = h := by omega
  rw [recordsEdge_eq, cdiv_two_mul_succ, toNat_two_mul_succ, Int.toNat_ofNat, edgeLayout]
  simp only [List.mem_flatMap, List.mem_map, List.mem_range, hd]
  constructor
  · rintro ⟨i, hi, j, hj, rfl⟩
    exact ⟨i, j, hi, hj, rfl⟩
  · rintro ⟨i, j, hi, hj, rfl⟩
    exact ⟨i, hi, j, hj, rfl⟩

theorem mem_recordsAgre_odd (h : Nat) (r : Record) :
    r ∈ recordsAgre (2 * (h : Int) + 1) ↔
      ∃ p s : Nat, p < 2 * h + 1 ∧ s < h ∧
        r = agreRec (topologie.new (2 * (h : Int) + 1)) (1 + (p : Int)) (1 + (s : Int)) := by
  rw [recordsAgre_eq, agreLayout]
  simp only [topologie.new, cdiv_two_mul_succ, toNat_two_mul_succ, Int.toNat_ofNat,
    List.mem_flatMap, List.mem_map, List.mem_range]
  constructor
  · rintro ⟨i, hi, j, hj, rfl⟩
    exact ⟨i, j, hi, hj, rfl⟩
  · rintro ⟨i, j, hi, hj, rfl⟩
    exact ⟨i, hi, j, hj, rfl⟩

theorem agreRec_id_odd (h p s : Nat) :
    (agreRec (topologie.new (2 * (h : Int) + 1)) (1 + (p : Int)) (1 + (s : Int))).id
      = Ident.Aggr (p : Int) ((h : Int) + (s : Int)) := by
  simp only [agreRec, topologie.new, cdiv_two_mul_succ]
  congr 1 <;> ring

theorem kind_nodeLayout (np ne nh : Nat) (r : Record) (hr : r ∈ nodeLayout np ne nh) :
    r.id.kind = Kind.node := by
  simp only [nodeLayout, List.mem_flatMap, List.mem_map] at hr
  obtain ⟨i, -, j, -, t, -, rfl⟩ := hr
  rfl

theorem kind_edgeLayout (pt idy : Int) (n np ne : Nat) (r : Record)
    (hr : r ∈ edgeLayout pt idy n np ne) : r.id.kind = Kind.edge := by
  simp only [edgeLayout, List.mem_flatMap, List.mem_map] at hr
  obtain ⟨i, -, j, -, rfl⟩ := hr
  rfl

theorem kind_coreLayout (T : topologie) (r : Record) (hr : r ∈ coreLayout T) :
    r.id.kind = Kind.core := by
  simp only [coreLayout, List.mem_flatMap, List.mem_map] at hr
  obtain ⟨i, -, j, -, rfl⟩ := hr
  rfl

/-- For odd `k` the last port of an edge switch names an aggregation identity
that no record of the run carries. -/
theorem odd_dangling (h : Nat) (i : Nat) (B : Record)
    (hB : B ∈ allRecords (2 * (h : Int) + 1)) :
    B.id ≠ Ident.Aggr (i : Int) ((h : Int) + (h : Int)) := by
  intro hid
  have hk : B.id.kind = Kind.aggr := by rw [hid]; rfl
  rw [mem_allRecords] at hB
  rcases hB with hB | hB | hB | hB
  · rw [recordsNode_eq] at hB
    rw [kind_nodeLayout _ _ _ B hB] at hk
    exact absurd hk (by decide)
  · rw [recordsEdge_eq] at hB
    rw [kind_edgeLayout _ _ _ _ _ B hB] at hk
    exact absurd hk (by decide)
  · obtain ⟨p, s, -, hs, rfl⟩ := (mem_recordsAgre_odd h B).1 hB
    rw [agreRec_id_odd] at hid
    simp only [Ident.Aggr.injEq] at hid
    omega
  · rw [recordsCore_eq] at hB
    rw [kind_coreLayout _ B hB] at hk
    exact absurd hk (by decide)

/-- C17. If the four enumerators are run on an odd `k ≥ 3` (without the test of
`main`): `printEdge` emits at least one edge record, and every edge record
`Edge(i j 1)` has a port line naming `Aggr(i, k-1, 1)`; `printAgre` emits
aggregation records with slots in `[(k-1)/2, k-2]` only (and each of these
slots); so every edge record has a port line whose peer is the identity of no
emitted record, and bidirectional agreement fails for the output. -/
theorem C17_odd_k_dangling (k : Int) (h3 : 3 ≤ k) (ho : k % 2 = 1) :
    recordsEdge k ≠ [] ∧
    (∀ E ∈ recordsEdge k, ∃ i j : Int,
      E.id = Ident.Edge i j ∧ ∃ p ∈ E.lines, p.peer = Ident.Aggr i (k - 1)) ∧
    (∀ A ∈ recordsAgre k, ∃ p s : Int,
      A.id = Ident.Aggr p s ∧ (k - 1) / 2 ≤ s ∧ s ≤ k - 2) ∧
    (∀ s : Int, (k - 1) / 2 ≤ s → s ≤ k - 2 →
      ∃ A ∈ recordsAgre k, ∃ p : Int, A.id = Ident.Aggr p s) ∧
    (∀ E ∈ recordsEdge k, ∃ p ∈ E.lines, ∀ B ∈ allRecords k, B.id ≠ p.peer) ∧
    ¬ (∀ A ∈ allRecords k, ∀ p ∈ A.lines,
        ∃ B ∈ allRecords k, B.id = p.peer ∧
          ∃ q ∈ B.lines, q.loc = p.peerPort ∧ q.peer = A.id ∧ q.peerPort = p.loc) := by
  obtain ⟨h, hh, rfl⟩ := odd_param k h3 ho
  have hk1 : (2 * (h : Int) + 1 - 1) = (h : Int) + (h : Int) := by ring
  have hk2 : (2 * (h : Int) + 1 - 1) / 2 = (h : Int) := by omega
  have hfirst : edgeRec (2 * (h : Int) + 1) (h : Int) (2 * h + 1)
      (((0 : Nat) : Int) * ((h : Int) * (h : Int)) + ((0 : Nat) : Int) * (h : Int))
      ((0 : Nat) : Int) ((0 : Nat) : Int) ∈ recordsEdge (2 * (h : Int) + 1) :=
    (mem_recordsEdge_odd h _).2 ⟨0, 0, by omega, by omega, rfl⟩
  have hlast : ∀ (i j : Nat) (c : Int),
      (⟨2 * (h : Int) + 1, " ", Ident.Aggr (i : Int) ((h : Int) + (h : Int)),
          ((j : Int) + 1) * 2⟩ : PortLine)
        ∈ (edgeRec (2 * (h : Int) + 1) (h : Int) (2 * h + 1) c i j).lines := by
    intro i j c
    refine List.mem_map.2 ⟨2 * h, List.mem_range.2 (by omega), ?_⟩
    rw [edgePort_even]
  have hdang : ∀ E ∈ recordsEdge (2 * (h : Int) + 1),
      ∃ p ∈ E.lines, ∀ B ∈ allRecords (2 * (h : Int) + 1), B.id ≠ p.peer := by
    intro E hE
    obtain ⟨i, j, -, -, rfl⟩ := (mem_recordsEdge_odd h E).1 hE
    exact ⟨_, hlast i j _, fun B hB => odd_dangling h i B hB⟩
  rw [hk2, hk1]
  refine ⟨?_, ?_, ?_, ?_, hdang, ?_⟩
  · intro hnil
    rw [hnil] at hfirst
    exact absurd hfirst (List.not_mem_nil _)
  · intro E hE
    obtain ⟨i, j, -, -, rfl⟩ := (mem_recordsEdge_odd h E).1 hE
    exact ⟨i, j, rfl, _, hlast i j _, rfl⟩
  · intro A hA
    obtain ⟨p, s, -, hs, rfl⟩ := (mem_recordsAgre_odd h A).1 hA
    exact ⟨p, (h : Int) + (s : Int), agreRec_id_odd h p s, by omega, by omega⟩
  · intro s hs1 hs2
    obtain ⟨s', rfl⟩ : ∃ s' : Nat, s = (h : Int) + (s' : Int) := ⟨(s - h).toNat, by omega⟩
    exact ⟨_, (mem_recordsAgre_odd h _).2 ⟨0, s', by omega, by omega, rfl⟩, _,
      agreRec_id_odd h 0 s'⟩
  · intro hall
    obtain ⟨p, hp, hno⟩ := hdang _ hfirst
    obtain ⟨B, hB, hid, -⟩ := hall _
      ((mem_allRecords _ _).2 (Or.inr (Or.inl hfirst))) p hp
    exact hno B hB hid

/-- Instance of C17 at `k = 3`: `Edge(0 0 1)` names `Aggr(0 2 1)` on port 3,
the only aggregation slot emitted is 1, and no record is `Aggr(0 2 1)`. -/
theorem C17_odd_k_dangling_witness :
    recordsEdge 3 ≠ [] ∧
    (∀ E ∈ recordsEdge 3, ∃ i j : Int,
      E.id = Ident.Edge i j ∧ ∃ p ∈ E.lines, p.peer = Ident.Aggr i (3 - 1)) ∧
    (∀ A ∈ recordsAgre 3, ∃ p s : Int,
      A.id = Ident.Aggr p s ∧ ((3 : Int) - 1) / 2 ≤ s ∧ s ≤ 3 - 2) ∧
    (∀ s : Int, ((3 : Int) - 1) / 2 ≤ s → s ≤ 3 - 2 →
      ∃ A ∈ recordsAgre 3, ∃ p : Int, A.id = Ident.Aggr p s) ∧
    (∀ E ∈ recordsEdge 3, ∃ p ∈ E.lines, ∀ B ∈ allRecords 3, B.id ≠ p.peer) ∧
    ¬ (∀ A ∈ allRecords 3, ∀ p ∈ A.lines,
        ∃ B ∈ allRecords 3, B.id = p.peer ∧
          ∃ q ∈ B.lines, q.loc = p.peerPort ∧ q.peer = A.id ∧ q.peerPort = p.loc) :=
  C17_odd_k_dangling 3 (by decide) (by decide)

/-! ## Range of the host counter -/

/-- A loop that bumps a counter and records values depending on the index and
the counter. -/
theorem forLoop_record {γ β : Type} (lo hi : Int) (body : Int → γ × List β → γ × List β)
    (step : Int → γ → γ) (g : Int → γ → List β)
    (hbody : ∀ i c f, body i (c, f) = (step i c, f ++ g i c))
    (cnt : Nat → γ) (hc : ∀ m, cnt (m + 1) = step (lo + (m : Int)) (cnt m))
    (f : List β) :
    forLoop lo hi body (cnt 0, f)
      = (cnt (hi - lo).toNat,
         f ++ (List.range (hi - lo).toNat).flatMap (fun (m : Nat) => g (lo + (m : Int)) (cnt m))) := by
  unfold forLoop
  induction (hi - lo).toNat with
  | zero => simp
  | succ n ih =>
    rw [List.range_succ, List.foldl_append, ih]
    simp [hbody, hc, List.flatMap_append]

theorem idx_inner (n c : Int) (tr : List Int) :
    forLoop 0 n (fun _ s => idxStep s) (c, tr)
      = (c + (n.toNat : Int),
         tr ++ (List.range n.toNat).map (fun (t : Nat) => c + (t : Int) + 1)) := by
  have h := forLoop_record 0 n (fun _ s => idxStep s) (fun _ c => c + 1)
    (fun _ c => [c + 1]) (fun _ _ _ => rfl)
    (fun m => c + (m : Int)) (fun m => by push_cast; ring) tr
  simp only [Nat.cast_zero, add_zero, sub_zero] at h
  rw [h, List.map_eq_flatMap]

theorem idx_edge_inner (h : Nat) (c : Int) (tr : List Int) :
    forLoop 0 (2 * (h : Int)) (fun t s => if cmod t 2 = 0 then s else idxStep s) (c, tr)
      = (c + (h : Int), tr ++ (List.range h).map (fun (t : Nat) => c + (t : Int) + 1)) := by
  have hr := forLoop_record 0 (2 * (h : Int))
    (fun t s => if cmod t 2 = 0 then s else idxStep s)
    (fun t c => if cmod t 2 = 0 then c else c + 1)
    (fun t c => if cmod t 2 = 0 then [] else [c + 1])
    (fun t c f => by
      by_cases ht : cmod t 2 = 0
      · simp [ht]
      · simp [ht, idxStep])
    (fun m => c + ((m / 2 : Nat) : Int))
    (fun m => by
      simp only [zero_add, cmod_two_nat]
      rcases Nat.mod_two_eq_zero_or_one m with hm | hm
      · simp only [hm, Nat.cast_zero, if_true]
        congr 2
        omega
      · simp only [hm, Nat.cast_one, one_ne_zero, if_false]
        omega) tr
  simp only [Nat.zero_div, Nat.cast_zero, add_zero, sub_zero, toNat_two_mul, zero_add] at hr
  rw [hr, Nat.mul_div_cancel_left h (show 0 < 2 by decide), range_two_mul,
    List.flatMap_assoc, List.map_eq_flatMap]
  congr 3
  funext s
  have h1 : (2 * s) % 2 = 0 := by omega
  have h2 : (2 * s + 1) % 2 = 1 := by omega
  have h3 : (2 * s + 1) / 2 = s := by omega
  simp only [List.flatMap_cons, List.flatMap_nil, cmod_two_nat, h1, h2, h3, Nat.cast_zero,
    Nat.cast_one, if_true, one_ne_zero, if_false, List.nil_append, List.append_nil]

theorem idx_nested (np ne : Int) (nh : Nat) (inner : Int × List Int → Int × List Int)
    (hin : ∀ c tr, inner (c, tr)
      = (c + (nh : Int), tr ++ (List.range nh).map (fun (t : Nat) => c + (t : Int) + 1))) :
    (forLoop 0 np (fun _ s => forLoop 0 ne (fun _ s => inner s) s) (0, [0])).2
      = (List.range (np.toNat * (ne.toNat * nh) + 1)).map (fun (n : Nat) => (n : Int)) := by
  have mid : ∀ c tr, forLoop 0 ne (fun _ s => inner s) (c, tr)
      = (c + (ne.toNat : Int) * (nh : Int),
         tr ++ (List.range ne.toNat).flatMap (fun (j : Nat) =>
           (List.range nh).map (fun (t : Nat) => c + (j : Int) * (nh : Int) + (t : Int) + 1))) := by
    intro c tr
    have h := forLoop_record 0 ne (fun _ s => inner s) (fun _ c => c + (nh : Int))
      (fun _ c => (List.range nh).map (fun (t : Nat) => c + (t : Int) + 1))
      (fun _ c f => hin c f)
      (fun m => c + (m : Int) * (nh : Int)) (fun m => by push_cast; ring) tr
    simpa only [Nat.cast_zero, zero_mul, add_zero, sub_zero] using h
  have outer := forLoop_record 0 np (fun _ s => forLoop 0 ne (fun _ s => inner s) s)
    (fun _ c => c + (ne.toNat : Int) * (nh : Int))
    (fun _ c => (List.range ne.toNat).flatMap (fun (j : Nat) =>
           (List.range nh).map (fun (t : Nat) => c + (j : Int) * (nh : Int) + (t : Int) + 1)))
    (fun _ c f => mid c f)
    (fun m => (m : Int) * ((ne.toNat : Int) * (nh : Int))) (fun m => by push_cast; ring) [0]
  simp only [Nat.cast_zero, zero_mul, sub_zero] at outer
  rw [outer]
  simp only
  rw [triple_range_map np.toNat ne.toNat nh (fun i j t =>
    (i : Int) * ((ne.toNat : Int) * (nh : Int)) + (j : Int) * (nh : Int) + (t : Int) + 1),
    List.range_succ_eq_map, List.map_cons, List.map_map]
  simp only [Nat.cast_zero, List.singleton_append, List.cons.injEq, true_and]
  apply List.map_congr_left
  intro n _
  have e := index_split n (ne.toNat * nh) nh
  have e' : ((n / (ne.toNat * nh) : Nat) : Int) * ((ne.toNat : Int) * (nh : Int))
      + ((n % (ne.toNat * nh) / nh : Nat) : Int) * (nh : Int)
      + ((n % (ne.toNat * nh) % nh : Nat) : Int) = (n : Int) := by
    exact_mod_cast e
  simp only [Function.comp, e', Nat.succ_eq_add_one, Nat.cast_add, Nat.cast_one]

/-- The values of `idx` during `printNode` for `k = 2 * h`. -/
theorem nodeIdxTrace_even (h : Nat) :
    (topologie.new (2 * (h : Int))).nodeIdxTrace
      = (List.range (2 * h * (h * h) + 1)).map (fun (n : Nat) => (n : Int)) := by
  have e := idx_nested (2 * (h : Int)) (h : Int) h
    (fun s => forLoop 0 (h : Int) (fun _ s => idxStep s) s)
    (fun c tr => by
      have := idx_inner (h : Int) c tr
      simpa only [Int.toNat_ofNat] using this)
  simp only [toNat_two_mul, Int.toNat_ofNat] at e
  simp only [topologie.nodeIdxTrace, topologie.new, cdiv_two_mul]
  exact e

/-- The values of `idx` during `printEdge` for `k = 2 * h`. -/
theorem edgeIdxTrace_even (h : Nat) :
    (topoEdge (2 * (h : Int))).edgeIdxTrace
      = (List.range (2 * h * (h * h) + 1)).map (fun (n : Nat) => (n : Int)) := by
  have e := idx_nested (2 * (h : Int)) (h : Int) h
    (fun s => forLoop 0 (2 * (h : Int)) (fun t s => if cmod t 2 = 0 then s else idxStep s) s)
    (fun c tr => idx_edge_inner h c tr)
  simp only [toNat_two_mul, Int.toNat_ofNat] at e
  simp only [topologie.edgeIdxTrace, topoEdge, topoNode, topologie.printNode, topologie.new,
    cdiv_two_mul]
  exact e

theorem final_le_iff (h : Nat) : 2 * h * (h * h) ≤ 2147483647 ↔ h ≤ 1023 := by
  constructor
  · intro hle
    by_contra hc
    have h0 : 1024 ≤ h := by omega
    have h1 : 1024 * 1024 ≤ h * h := Nat.mul_le_mul h0 h0
    have h2 : 2 * 1024 ≤ 2 * h := by omega
    have h3 : 2 * 1024 * (1024 * 1024) ≤ 2 * h * (h * h) := Nat.mul_le_mul h2 h1
    omega
  · intro hle
    have h1 : h * h ≤ 1023 * 1023 := Nat.mul_le_mul hle hle
    have h2 : 2 * h ≤ 2 * 1023 := by omega
    have h3 : 2 * h * (h * h) ≤ 2 * 1023 * (1023 * 1023) := Nat.mul_le_mul h2 h1
    omega

theorem range_within_iff (N : Nat) :
    (∀ v ∈ (List.range (N + 1)).map (fun (n : Nat) => (n : Int)), 0 ≤ v ∧ v ≤ INT_MAX)
      ↔ N ≤ 2147483647 := by
  constructor
  · intro hall
    have := (hall (N : Int) (List.mem_map.2 ⟨N, List.mem_range.2 (by omega), rfl⟩)).2
    unfold INT_MAX at this
    omega
  · intro hN v hv
    obtain ⟨n, hn, rfl⟩ := List.mem_map.1 hv
    have := List.mem_range.1 hn
    unfold INT_MAX
    omega

theorem range_cast_dropLast (N : Nat) :
    ((List.range (N + 1)).map (fun (n : Nat) => (n : Int))).dropLast
      = (List.range N).map (fun (n : Nat) => (n : Int)) := by
  rw [List.range_succ, List.map_append, List.map_singleton, List.dropLast_concat]

theorem range_cast_getLast (N : Nat) :
    ((List.range (N + 1)).map (fun (n : Nat) => (n : Int))).getLast? = some (N : Int) := by
  rw [List.range_succ, List.map_append, List.map_singleton, List.getLast?_concat]

/-- C18. For every even `k ≥ 4` the host counter `idx` of `printNode` and of
`printEdge` takes the values `0, 1, ..., (k/2)^2*k` in this order (all but the
last are the host indices the pass writes, the last is its final value); every
value lies in `[0, INT_MAX]`, with `INT_MAX = 2^31 - 1`, if and only if
`k ≤ 2046`; for `k = 2048` the final value is `INT_MAX + 1 = 2^31`, produced by
an increment of `INT_MAX`. -/
theorem C18_host_counter_range (k : Int) (h4 : 4 ≤ k) (he : k % 2 = 0) :
    (topoNode k).nodeIdxTrace
      = (List.range (((k / 2) ^ 2 * k).toNat + 1)).map (fun (n : Nat) => (n : Int)) ∧
    (topoEdge k).edgeIdxTrace
      = (List.range (((k / 2) ^ 2 * k).toNat + 1)).map (fun (n : Nat) => (n : Int)) ∧
    (recordsNode k).map Record.id = ((topoNode k).nodeIdxTrace.dropLast).map Ident.Node ∧
    (recordsEdge k).flatMap (fun E => E.lines.filterMap PortLine.hostIdx)
      = (topoEdge k).edgeIdxTrace.dropLast ∧
    ((∀ v ∈ (topoNode k).nodeIdxTrace, 0 ≤ v ∧ v ≤ INT_MAX) ↔ k ≤ 2046) ∧
    ((∀ v ∈ (topoEdge k).edgeIdxTrace, 0 ≤ v ∧ v ≤ INT_MAX) ↔ k ≤ 2046) ∧
    (topoNode 2048).nodeIdxTrace.getLast? = some (INT_MAX + 1) ∧
    (topoEdge 2048).edgeIdxTrace.getLast? = some (INT_MAX + 1) ∧
    INT_MAX ∈ (topoNode 2048).nodeIdxTrace ∧
    INT_MAX + 1 = 2 ^ 31 := by
  obtain ⟨h, -, rfl⟩ := even_param k h4 he
  have hN := nodeIdxTrace_even h
  have hE := edgeIdxTrace_even h
  have e2048 : (2048 : Int) = 2 * ((1024 : Nat) : Int) := by norm_num
  have hmax : INT_MAX + 1 = ((2 * 1024 * (1024 * 1024) : Nat) : Int) := by
    unfold INT_MAX
    norm_num
  have hiff : (2 * h * (h * h) ≤ 2147483647) ↔ (2 * (h : Int) ≤ 2046) := by
    rw [final_le_iff]
    omega
  rw [pow_half]
  simp only [topoNode] at hN ⊢
  refine ⟨hN, hE, ?_, ?_, ?_, ?_, ?_, ?_, ?_, ?_⟩
  · rw [hN, range_cast_dropLast, node_ids, List.map_map]
    rfl
  · rw [hE, range_cast_dropLast, edge_host_sequence]
  · rw [hN, range_within_iff]
    exact hiff
  · rw [hE, range_within_iff]
    exact hiff
  · rw [e2048, nodeIdxTrace_even, range_cast_getLast, hmax]
  · rw [e2048, edgeIdxTrace_even, range_cast_getLast, hmax]
  · rw [e2048, nodeIdxTrace_even]
    refine List.mem_map.2 ⟨2147483647, List.mem_range.2 (by norm_num), ?_⟩
    unfold INT_MAX
    norm_num
  · unfold INT_MAX
    norm_num

/-- Instance of C18 at `k = 4`: the counter of `printNode` takes the values
`0, ..., 16`, all within the range. -/
theorem C18_host_counter_range_witness :
    (topoNode 4).nodeIdxTrace
      = (List.range ((((4 : Int) / 2) ^ 2 * 4).toNat + 1)).map (fun (n : Nat) => (n : Int)) ∧
    ((∀ v ∈ (topoNode 4).nodeIdxTrace, 0 ≤ v ∧ v ≤ INT_MAX) ↔ (4 : Int) ≤ 2046) :=
  ⟨(C18_host_counter_range 4 (by decide) (by decide)).1,
   (C18_host_counter_range 4 (by decide) (by decide)).2.2.2.2.1⟩

/-! ## The 32-bit run against the run without range

The passes with the 32-bit counter write what the passes without range write,
with every host index reduced to 32 bits. -/

theorem wrap32_succ (c : Int) : wrap32 (wrap32 c + 1) = wrap32 (c + 1) := by
  unfold wrap32
  omega

theorem wrap32_of_range (x : Int) (h0 : 0 ≤ x) (h1 : x < 2147483648) : wrap32 x = x := by
  unfold wrap32
  omega

theorem wrap32_inj (x y : Int) (hx0 : 0 ≤ x) (hx : x < 4294967296) (hy0 : 0 ≤ y)
    (hy : y < 4294967296) (e : wrap32 x = wrap32 y) : x = y := by
  unfold wrap32 at e
  omega

/-- Two loops whose bodies commute with a map of the state commute with it. -/
theorem forLoop_sim {σ τ : Type} (W : σ → τ) (lo hi : Int) (body : Int → σ → σ)
    (body32 : Int → τ → τ) (hstep : ∀ i s, body32 i (W s) = W (body i s)) (s : σ) :
    forLoop lo hi body32 (W s) = W (forLoop lo hi body s) := by
  unfold forLoop
  induction (List.range (hi - lo).toNat) generalizing s with
  | nil => rfl
  | cons n l ih =>
    simp only [List.foldl_cons]
    rw [hstep, ih]

theorem nodeStep32_sim (i j t : Int) (s : Int × List Line) :
    nodeStep32 i j t (wrap32 s.1, s.2.map Line.wrap)
      = (wrap32 (nodeStep i j t s).1, (nodeStep i j t s).2.map Line.wrap) := by
  simp only [nodeStep32, nodeStep, wrap32_succ, List.map_append, List.map_cons, List.map_nil,
    Line.wrap, Ident.wrap, PortLine.wrap]

theorem printNode32_wrap (T : topologie) : T.wrapFile.printNode32 = T.printNode.wrapFile := by
  have h := forLoop_sim (fun (s : Int × List Line) => (wrap32 s.1, s.2.map Line.wrap))
    0 T.num_pod
    (fun i s => forLoop 0 T.num_edge (fun j s =>
      forLoop 0 T.num_host (fun t s => nodeStep i j t s) s) s)
    (fun i s => forLoop 0 T.num_edge (fun j s =>
      forLoop 0 T.num_host (fun t s => nodeStep32 i j t s) s) s)
    (fun i s => forLoop_sim _ 0 T.num_edge _ _
      (fun j s => forLoop_sim _ 0 T.num_host _ _ (fun t s => nodeStep32_sim i j t s) s) s)
    (0, T.file)
  have h0 : wrap32 0 = 0 := by decide
  simp only [h0] at h
  simp only [topologie.printNode32, topologie.printNode, topologie.wrapFile, h]

theorem edgeStep32_sim (i j t : Int) (s : (Int × Int) × List Line) :
    edgeStep32 i j t ((wrap32 s.1.1, s.1.2), s.2.map Line.wrap)
      = ((wrap32 (edgeStep i j t s).1.1, (edgeStep i j t s).1.2),
         (edgeStep i j t s).2.map Line.wrap) := by
  unfold edgeStep32 edgeStep
  by_cases ht : cmod t 2 = 0
  · simp only [ht, if_true, List.map_append, List.map_cons, List.map_nil, Line.wrap,
      Ident.wrap, PortLine.wrap]
  · simp only [ht, if_false, wrap32_succ, List.map_append, List.map_cons, List.map_nil,
      Line.wrap, Ident.wrap, PortLine.wrap]

theorem edgeSwitch32_sim (T : topologie) (i j : Int) (s : Int × List Line) :
    edgeSwitch32 T.wrapFile i j (wrap32 s.1, s.2.map Line.wrap)
      = (wrap32 (edgeSwitch T i j s).1, (edgeSwitch T i j s).2.map Line.wrap) := by
  have h := forLoop_sim
    (fun (s : (Int × Int) × List Line) => ((wrap32 s.1.1, s.1.2), s.2.map Line.wrap))
    0 T.num_port (fun t st => edgeStep i j t st) (fun t st => edgeStep32 i j t st)
    (fun t s => edgeStep32_sim i j t s)
    ((s.1, cdiv T.num_pod 2),
      s.2 ++ [Line.header Dev.Switch T.num_port (Ident.Edge i j)])
  simp only [List.map_append, List.map_cons, List.map_nil, Line.wrap, Ident.wrap] at h
  simp only [edgeSwitch32, edgeSwitch, topologie.wrapFile, h]

theorem printEdge32_wrap (T : topologie) : T.wrapFile.printEdge32 = T.printEdge.wrapFile := by
  have h := forLoop_sim (fun (s : Int × List Line) => (wrap32 s.1, s.2.map Line.wrap))
    0 T.num_pod
    (fun i s => forLoop 0 T.num_edge (fun j s => edgeSwitch T i j s) s)
    (fun i s => forLoop 0 T.num_edge (fun j s => edgeSwitch32 T.wrapFile i j s) s)
    (fun i s => forLoop_sim _ 0 T.num_edge _ _ (fun j s => edgeSwitch32_sim T i j s) s)
    (0, T.file)
  have h0 : wrap32 0 = 0 := by decide
  simp only [h0] at h
  simp only [topologie.printEdge32, topologie.printEdge]
  simp only [topologie.wrapFile] at h ⊢
  rw [h]

theorem agreStep_wrap (T : topologie) (i j m : Int) (f : List Line) :
    agreStep T.wrapFile i j m (f.map Line.wrap) = (agreStep T i j m f).map Line.wrap := by
  unfold agreStep
  by_cases hm : cmod m 2 = 1
  · simp only [hm, if_true, List.map_append, List.map_cons, List.map_nil, Line.wrap,
      Ident.wrap, PortLine.wrap, topologie.wrapFile]
  · simp only [hm, if_false, List.map_append, List.map_cons, List.map_nil, Line.wrap,
      Ident.wrap, PortLine.wrap, topologie.wrapFile]

theorem printAgre_wrap (T : topologie) : T.wrapFile.printAgre = T.printAgre.wrapFile := by
  have h := forLoop_sim (fun (f : List Line) => f.map Line.wrap) 1 (T.k + 1)
    (fun i file => forLoopLe 1 T.num_agre (fun j file =>
        forLoopLe 1 T.k (fun m file => agreStep T i j m file)
          (file ++ [Line.header Dev.Switch T.num_port
            (Ident.Aggr (i - 1) (j + cdiv T.k 2 - 1))])) file)
    (fun i file => forLoopLe 1 T.num_agre (fun j file =>
        forLoopLe 1 T.k (fun m file => agreStep T.wrapFile i j m file)
          (file ++ [Line.header Dev.Switch T.num_port
            (Ident.Aggr (i - 1) (j + cdiv T.k 2 - 1))])) file)
    (fun i f => by
      unfold forLoopLe
      refine forLoop_sim (fun (f : List Line) => f.map Line.wrap) 1 (T.num_agre + 1) _ _
        (fun j f => ?_) f
      have e := forLoop_sim (fun (f : List Line) => f.map Line.wrap) 1 (T.k + 1)
        (fun m file => agreStep T i j m file) (fun m file => agreStep T.wrapFile i j m file)
        (fun m f => agreStep_wrap T i j m f)
        (f ++ [Line.header Dev.Switch T.num_port (Ident.Aggr (i - 1) (j + cdiv T.k 2 - 1))])
      simpa only [List.map_append, List.map_cons, List.map_nil, Line.wrap, Ident.wrap] using e)
    T.file
  simp only [topologie.printAgre, forLoopLe, topologie.wrapFile] at h ⊢
  rw [h]

theorem coreStep_wrap (T : topologie) (i j m : Int) (f : List Line) :
    coreStep T.wrapFile i j m (f.map Line.wrap) = (coreStep T i j m f).map Line.wrap := by
  simp only [coreStep, List.map_append, List.map_cons, List.map_nil, Line.wrap,
    Ident.wrap, PortLine.wrap, topologie.wrapFile]

theorem printCore_wrap (T : topologie) : T.wrapFile.printCore = T.printCore.wrapFile := by
  have h := forLoop_sim (fun (f : List Line) => f.map Line.wrap) 1 (cdiv T.k 2 + 1)
    (fun i file => forLoopLe 1 (cdiv T.k 2) (fun j file =>
        forLoopLe 1 T.k (fun m file => coreStep T i j m file)
          (file ++ [Line.header Dev.Switch T.num_port (Ident.Core T.k i j)])) file)
    (fun i file => forLoopLe 1 (cdiv T.k 2) (fun j file =>
        forLoopLe 1 T.k (fun m file => coreStep T.wrapFile i j m file)
          (file ++ [Line.header Dev.Switch T.num_port (Ident.Core T.k i j)])) file)
    (fun i f => by
      unfold forLoopLe
      refine forLoop_sim (fun (f : List Line) => f.map Line.wrap) 1 (cdiv T.k 2 + 1) _ _
        (fun j f => ?_) f
      have e := forLoop_sim (fun (f : List Line) => f.map Line.wrap) 1 (T.k + 1)
        (fun m file => coreStep T i j m file) (fun m file => coreStep T.wrapFile i j m file)
        (fun m f => coreStep_wrap T i j m f)
        (f ++ [Line.header Dev.Switch T.num_port (Ident.Core T.k i j)])
      simpa only [List.map_append, List.map_cons, List.map_nil, Line.wrap, Ident.wrap] using e)
    T.file
  simp only [topologie.printCore, forLoopLe, topologie.wrapFile] at h ⊢
  rw [h]

theorem portsOf_wrap (L : List Line) :
    portsOf (L.map Line.wrap) = (portsOf L).map PortLine.wrap := by
  induction L with
  | nil => rfl
  | cons l L ih =>
    cases l <;> simp [portsOf, Line.wrap, ih]

theorem records_wrap (L : List Line) :
    records (L.map Line.wrap) = (records L).map Record.wrap := by
  induction L with
  | nil => rfl
  | cons l L ih =>
    cases l <;> simp [records, Line.wrap, Record.wrap, portsOf_wrap, ih]

theorem emitted_wrap (m m32 : topologie → topologie) (T : topologie)
    (h : m32 T.wrapFile = (m T).wrapFile) :
    emitted m32 T.wrapFile = (emitted m T).map Line.wrap := by
  unfold emitted
  rw [h]
  simp only [topologie.wrapFile, List.length_map, List.map_drop]

theorem new_wrapFile (k : Int) : (topologie.new k).wrapFile = topologie.new k := rfl

theorem topoEdge32_eq (k : Int) : topoEdge32 k = (topoEdge k).wrapFile := by
  unfold topoEdge32 topoEdge topoNode
  rw [← printNode32_wrap, new_wrapFile]

theorem topoAgre32_eq (k : Int) : topoAgre32 k = (topoAgre k).wrapFile := by
  unfold topoAgre32 topoAgre
  rw [topoEdge32_eq, printEdge32_wrap]

theorem topoCore32_eq (k : Int) : topoCore32 k = (topoCore k).wrapFile := by
  unfold topoCore32 topoCore
  rw [topoAgre32_eq, printAgre_wrap]

theorem recordsNode32_eq (k : Int) : recordsNode32 k = (recordsNode k).map Record.wrap := by
  unfold recordsNode32 recordsNode topoNode
  rw [← records_wrap, ← emitted_wrap _ _ _ (printNode32_wrap _), new_wrapFile]

theorem recordsEdge32_eq (k : Int) : recordsEdge32 k = (recordsEdge k).map Record.wrap := by
  unfold recordsEdge32 recordsEdge
  rw [← records_wrap, ← emitted_wrap _ _ _ (printEdge32_wrap _), topoEdge32_eq]

theorem recordsAgre32_eq (k : Int) : recordsAgre32 k = (recordsAgre k).map Record.wrap := by
  unfold recordsAgre32 recordsAgre
  rw [← records_wrap, ← emitted_wrap _ _ _ (printAgre_wrap _), topoAgre32_eq]

theorem recordsCore32_eq (k : Int) : recordsCore32 k = (recordsCore k).map Record.wrap := by
  unfold recordsCore32 recordsCore
  rw [← records_wrap, ← emitted_wrap _ _ _ (printCore_wrap _), topoCore32_eq]

/-- The records of the 32-bit run are the records of the run without range with
every host index reduced to 32 bits. -/
theorem allRecords32_eq (k : Int) : allRecords32 k = (allRecords k).map Record.wrap := by
  simp only [allRecords32, allRecords, List.map_append, recordsNode32_eq, recordsEdge32_eq,
    recordsAgre32_eq, recordsCore32_eq]

/-! ## Identities under the 32-bit counter -/

theorem wrap_kind (x : Ident) : x.wrap.kind = x.kind := by
  cases x <;> rfl

theorem wrap_of_kind (x : Ident) (hx : x.kind ≠ Kind.node) : x.wrap = x := by
  cases x with
  | Node n => exact absurd rfl hx
  | Edge a b => rfl
  | Aggr a b => rfl
  | Core a b c => rfl

theorem count_le_31 (h : Nat) (hh : h ≤ 1024) : 2 * h * (h * h) ≤ 2147483648 := by
  have h1 : h * h ≤ 1024 * 1024 := Nat.mul_le_mul hh hh
  have h2 : 2 * h ≤ 2 * 1024 := by omega
  have h3 : 2 * h * (h * h) ≤ 2 * 1024 * (1024 * 1024) := Nat.mul_le_mul h2 h1
  omega

theorem count_le_32 (h : Nat) (hh : h ≤ 1290) : 2 * h * (h * h) ≤ 4294967296 := by
  have h1 : h * h ≤ 1290 * 1290 := Nat.mul_le_mul hh hh
  have h2 : 2 * h ≤ 2 * 1290 := by omega
  have h3 : 2 * h * (h * h) ≤ 2 * 1290 * (1290 * 1290) := Nat.mul_le_mul h2 h1
  omega

/-- An identity of the run without range is a host index below the number of
hosts, or not a host identity. -/
theorem ids_cases (h : Nat) (x : Ident)
    (hx : x ∈ (allRecords (2 * (h : Int))).map Record.id) :
    (∃ n : Nat, n < 2 * h * (h * h) ∧ x = Ident.Node (n : Int)) ∨ x.kind ≠ Kind.node := by
  obtain ⟨r, hr, rfl⟩ := List.mem_map.1 hx
  rw [mem_allRecords] at hr
  rcases hr with hr | hr | hr | hr
  · left
    have hm : r.id ∈ (recordsNode (2 * (h : Int))).map Record.id := List.mem_map_of_mem _ hr
    rw [node_ids] at hm
    obtain ⟨n, hn, e⟩ := List.mem_map.1 hm
    exact ⟨n, List.mem_range.1 hn, e.symm⟩
  · right
    rw [kind_edge h r hr]
    decide
  · right
    rw [kind_aggr h r hr]
    decide
  · right
    rw [kind_core h r hr]
    decide

/-- While there are at most `2^32` hosts, reducing host indices to 32 bits keeps
different identities different. -/
theorem wrap_inj_on_ids (h : Nat) (hh : h ≤ 1290) (x y : Ident)
    (hx : x ∈ (allRecords (2 * (h : Int))).map Record.id)
    (hy : y ∈ (allRecords (2 * (h : Int))).map Record.id) (e : x.wrap = y.wrap) : x = y := by
  have hN := count_le_32 h hh
  rcases ids_cases h x hx with ⟨n, hn, rfl⟩ | hkx
  · rcases ids_cases h y hy with ⟨m, hm, rfl⟩ | hky
    · simp only [Ident.wrap, Ident.Node.injEq] at e
      have := wrap32_inj (n : Int) (m : Int) (by omega) (by omega) (by omega) (by omega) e
      rw [this]
    · have hk := congrArg Ident.kind e
      rw [wrap_kind, wrap_kind] at hk
      exact absurd hk.symm hky
  · rcases ids_cases h y hy with ⟨m, hm, rfl⟩ | hky
    · have hk := congrArg Ident.kind e
      rw [wrap_kind, wrap_kind] at hk
      exact absurd hk hkx
    · rw [wrap_of_kind x hkx, wrap_of_kind y hky] at e
      exact e

theorem id_mem_ids (k : Int) (A : Record) (hA : A ∈ allRecords k) :
    A.id ∈ (allRecords k).map Record.id :=
  List.mem_map_of_mem _ hA

/-- The peer of a port line is the identity of a record of the run. -/
theorem peer_mem_ids (h : Nat) (A : Record) (hA : A ∈ allRecords (2 * (h : Int)))
    (p : PortLine) (hp : p ∈ A.lines) :
    p.peer ∈ (allRecords (2 * (h : Int))).map Record.id := by
  obtain ⟨B, hB, hid, -⟩ := reverse_line_exists h A hA p hp
  rw [← hid]
  exact List.mem_map_of_mem _ hB

/-- While there are at most `2^31` hosts, reducing to 32 bits changes no
identity of the run. -/
theorem wrap_id_small (h : Nat) (hh : h ≤ 1024) (x : Ident)
    (hx : x ∈ (allRecords (2 * (h : Int))).map Record.id) : x.wrap = x := by
  have hN := count_le_31 h hh
  rcases ids_cases h x hx with ⟨n, hn, rfl⟩ | hkx
  · show Ident.Node (wrap32 (n : Int)) = Ident.Node (n : Int)
    rw [wrap32_of_range (n : Int) (by omega) (by omega)]
  · exact wrap_of_kind x hkx

/-- For `k ≤ 2048` every host index written is below `2^31`, and the run with
the 32-bit counter writes exactly the records of the run without range. -/
theorem allRecords32_small (h : Nat) (hh : h ≤ 1024) :
    allRecords32 (2 * (h : Int)) = allRecords (2 * (h : Int)) := by
  rw [allRecords32_eq]
  conv_rhs => rw [← List.map_id (allRecords (2 * (h : Int)))]
  apply List.map_congr_left
  intro A hA
  have e1 : A.id.wrap = A.id := wrap_id_small h hh _ (id_mem_ids _ A hA)
  have e2 : A.lines.map PortLine.wrap = A.lines := by
    conv_rhs => rw [← List.map_id A.lines]
    apply List.map_congr_left
    intro p hp
    have e3 : p.peer.wrap = p.peer := wrap_id_small h hh _ (peer_mem_ids h A hA p hp)
    show (⟨p.loc, p.gap, p.peer.wrap, p.peerPort⟩ : PortLine) = p
    rw [e3]
  show (⟨A.dev, A.ports, A.id.wrap, A.lines.map PortLine.wrap⟩ : Record) = A
  rw [e1, e2]

theorem mem_wrap_lines (A0 : Record) (p : PortLine) :
    p ∈ A0.wrap.lines ↔ ∃ p0 ∈ A0.lines, p0.wrap = p := by
  simp only [Record.wrap, List.mem_map]

theorem hostIdx_wrap (r : Record) :
    r.wrap.lines.filterMap PortLine.hostIdx
      = (r.lines.filterMap PortLine.hostIdx).map wrap32 := by
  simp only [Record.wrap]
  induction r.lines with
  | nil => rfl
  | cons p l ih =>
    rcases p with ⟨loc, gap, peer, port⟩
    cases peer <;>
      simp [List.filterMap_cons, PortLine.hostIdx, PortLine.wrap, Ident.wrap, ih]

/-! ## Bidirectional agreement with the 32-bit counter -/

/-- The host indices named by the edge records of the 32-bit run, in emission
order: position `n` holds `n` reduced to 32 bits. -/
theorem edge_host_sequence32 (h : Nat) :
    (recordsEdge32 (2 * (h : Int))).flatMap (fun E => E.lines.filterMap PortLine.hostIdx)
      = (List.range (2 * h * (h * h))).map (fun (n : Nat) => wrap32 (n : Int)) := by
  rw [recordsEdge32_eq, List.flatMap_map]
  simp only [hostIdx_wrap]
  rw [← List.map_flatMap, edge_host_sequence, List.map_map]
  rfl

theorem node_ids32 (h : Nat) :
    (recordsNode32 (2 * (h : Int))).map Record.id
      = (List.range (2 * h * (h * h))).map (fun (n : Nat) => Ident.Node (wrap32 (n : Int))) := by
  rw [recordsNode32_eq, List.map_map]
  have e : (Record.id ∘ Record.wrap) = (Ident.wrap ∘ Record.id) := rfl
  rw [e, ← List.map_map, node_ids, List.map_map]
  rfl

theorem range_wrap_small (N : Nat) (hN : N ≤ 2147483648) :
    (List.range N).map (fun (n : Nat) => wrap32 (n : Int))
      = (List.range N).map (fun (n : Nat) => (n : Int)) := by
  apply List.map_congr_left
  intro n hn
  have := List.mem_range.1 hn
  exact wrap32_of_range _ (by omega) (by omega)

/-- C9 (counterexample). For `k = 2050` the host index that `printEdge` names at
position `2^31` of its sequence is `-2147483648`, not `2147483648`: the sequence
is not `0, 1, 2, ...`. -/
theorem C9_host_counter_agreement_counterexample :
    ((recordsEdge32 2050).flatMap (fun E => E.lines.filterMap PortLine.hostIdx))[2147483648]?
      = some (-2147483648) ∧
    (2147483648 : Int) < ((2050 : Int) / 2) ^ 2 * 2050 ∧
    (-2147483648 : Int) ≠ 2147483648 := by
  refine ⟨?_, by norm_num, by decide⟩
  have e2050 : (2050 : Int) = 2 * ((1025 : Nat) : Int) := by norm_num
  have e4 : wrap32 ((2147483648 : Nat) : Int) = -2147483648 := by decide
  rw [e2050, edge_host_sequence32, List.getElem?_map,
    List.getElem?_range (show 2147483648 < 2 * 1025 * (1025 * 1025) by norm_num),
    Option.map_some', e4]

/-- C9 (amended). For every even `k ≥ 4`, with `idx` a 32-bit counter: (a) for
every pod `i`, edge slot `j` and local position `t` in range there is one index
`n` such that the record of `Edge(i j 1)` names `Node(n)` on its port `2*(t+1)`
and the host record `Node(n)` has its uplink on `Edge(i j 1)` port `(t+1)*2`;
(b) whenever a host record's uplink names an edge record and one of its ports,
the port line of the edge record at that port names this host; (c) the host
indices named by `printEdge`, in emission order, are the indices `printNode`
assigns, in the same order: position `n` holds `n` reduced to 32 bits; (d) for
`k ≤ 2048` this sequence is `0, 1, 2, ...`. -/
theorem C9_host_counter_agreement (k : Int) (h4 : 4 ≤ k) (he : k % 2 = 0) :
    (∀ i j t : Nat, (i : Int) < k → (j : Int) < k / 2 → (t : Int) < k / 2 →
      ∃ n : Int,
        (∃ E ∈ recordsEdge32 k, E.id = Ident.Edge i j ∧
          (⟨2 * ((t : Int) + 1), " ", Ident.Node n, 1⟩ : PortLine) ∈ E.lines) ∧
        (∃ N ∈ recordsNode32 k, N.id = Ident.Node n ∧
          N.lines = [⟨1, "  ", Ident.Edge i j, ((t : Int) + 1) * 2⟩])) ∧
    (∀ E ∈ recordsEdge32 k, ∀ p ∈ E.lines, ∀ N ∈ recordsNode32 k, ∀ u ∈ N.lines,
      u.peer = E.id → u.peerPort = p.loc → p.peer = N.id) ∧
    ((recordsEdge32 k).flatMap (fun E => E.lines.filterMap PortLine.hostIdx)
        = (List.range ((k / 2) ^ 2 * k).toNat).map (fun (n : Nat) => wrap32 (n : Int)) ∧
      (recordsNode32 k).map Record.id
        = (List.range ((k / 2) ^ 2 * k).toNat).map
            (fun (n : Nat) => Ident.Node (wrap32 (n : Int)))) ∧
    (k ≤ 2048 →
      (recordsEdge32 k).flatMap (fun E => E.lines.filterMap PortLine.hostIdx)
        = (List.range ((k / 2) ^ 2 * k).toNat).map (fun (n : Nat) => (n : Int)) ∧
      (recordsNode32 k).map Record.id
        = (List.range ((k / 2) ^ 2 * k).toNat).map (fun (n : Nat) => Ident.Node (n : Int))) := by
  obtain ⟨ha, hb, -, -⟩ := host_agreement_ideal k h4 he
  obtain ⟨h, -, rfl⟩ := even_param k h4 he
  refine ⟨?_, ?_, ⟨?_, ?_⟩, ?_⟩
  · intro i j t hi hj ht
    obtain ⟨n, ⟨E, hE, hEid, hline⟩, ⟨N, hN, hNid, hNl⟩⟩ := ha i j t hi hj ht
    refine ⟨wrap32 n, ⟨E.wrap, ?_, ?_, ?_⟩, ⟨N.wrap, ?_, ?_, ?_⟩⟩
    · rw [recordsEdge32_eq]
      exact List.mem_map_of_mem _ hE
    · show E.id.wrap = _
      rw [hEid]
      rfl
    · exact (mem_wrap_lines E _).2 ⟨_, hline, rfl⟩
    · rw [recordsNode32_eq]
      exact List.mem_map_of_mem _ hN
    · show N.id.wrap = _
      rw [hNid]
      rfl
    · show N.lines.map PortLine.wrap = _
      rw [hNl]
      rfl
  · intro E hE p hp N hN u hu hpeer hport
    rw [recordsEdge32_eq] at hE
    rw [recordsNode32_eq] at hN
    obtain ⟨E0, hE0, rfl⟩ := List.mem_map.1 hE
    obtain ⟨N0, hN0, rfl⟩ := List.mem_map.1 hN
    obtain ⟨p0, hp0, rfl⟩ := (mem_wrap_lines E0 p).1 hp
    obtain ⟨u0, hu0, rfl⟩ := (mem_wrap_lines N0 u).1 hu
    have hpeer0 : u0.peer = E0.id := by
      have hw : u0.peer.wrap = E0.id.wrap := hpeer
      have hkE : E0.id.kind ≠ Kind.node := by
        rw [kind_edge h E0 hE0]
        decide
      have hku : u0.peer.kind ≠ Kind.node := by
        have := congrArg Ident.kind hw
        rw [wrap_kind, wrap_kind] at this
        rw [this]
        exact hkE
      rw [wrap_of_kind _ hkE, wrap_of_kind _ hku] at hw
      exact hw
    have := hb E0 hE0 p0 hp0 N0 hN0 u0 hu0 hpeer0 hport
    show p0.peer.wrap = N0.id.wrap
    rw [this]
  · rw [pow_half, edge_host_sequence32]
  · rw [pow_half, node_ids32]
  · intro hk
    have hN := count_le_31 h (by omega)
    rw [pow_half, edge_host_sequence32, node_ids32, range_wrap_small _ hN]
    refine ⟨rfl, ?_⟩
    apply List.map_congr_left
    intro n hn
    have := List.mem_range.1 hn
    rw [wrap32_of_range _ (by omega) (by omega)]

/-- Instance of C9 at `k = 4`, pod 3, edge slot 1, local position 1. -/
theorem C9_host_counter_agreement_witness :
    (∃ n : Int,
      (∃ E ∈ recordsEdge32 4, E.id = Ident.Edge ((3 : Nat) : Int) ((1 : Nat) : Int) ∧
        (⟨2 * (((1 : Nat) : Int) + 1), " ", Ident.Node n, 1⟩ : PortLine) ∈ E.lines) ∧
      (∃ N ∈ recordsNode32 4, N.id = Ident.Node n ∧
        N.lines = [⟨1, "  ", Ident.Edge ((3 : Nat) : Int) ((1 : Nat) : Int),
          (((1 : Nat) : Int) + 1) * 2⟩])) ∧
    ((4 : Int) ≤ 2048 →
      (recordsEdge32 4).flatMap (fun E => E.lines.filterMap PortLine.hostIdx)
        = (List.range (((4 : Int) / 2) ^ 2 * 4).toNat).map (fun (n : Nat) => (n : Int)) ∧
      (recordsNode32 4).map Record.id
        = (List.range (((4 : Int) / 2) ^ 2 * 4).toNat).map
            (fun (n : Nat) => Ident.Node (n : Int))) :=
  ⟨(C9_host_counter_agreement 4 (by decide) (by decide)).1 3 1 1
      (by decide) (by decide) (by decide),
   (C9_host_counter_agreement 4 (by decide) (by decide)).2.2.2⟩

/-! ## Distinct identities with the 32-bit counter -/

theorem ids32_eq (k : Int) :
    (allRecords32 k).map Record.id = ((allRecords k).map Record.id).map Ident.wrap := by
  rw [allRecords32_eq, List.map_map, List.map_map]
  rfl

theorem ids32_split (k : Int) :
    (allRecords32 k).map Record.id
      = (recordsNode32 k).map Record.id ++
          (recordsEdge32 k ++ recordsAgre32 k ++ recordsCore32 k).map Record.id := by
  simp only [allRecords32, List.map_append, List.append_assoc]

/-- While there are at most `2^32` hosts the identities of the 32-bit run are
pairwise distinct. -/
theorem all_ids32_nodup (h : Nat) (hh : h ≤ 1290) :
    ((allRecords32 (2 * (h : Int))).map Record.id).Nodup := by
  rw [ids32_eq]
  exact List.Nodup.map_on (fun x hx y hy e => wrap_inj_on_ids h hh x y hx hy e)
    (all_ids_nodup h)

/-- The identities of the switch records do not depend on the host counter. -/
theorem switch_ids32 (h : Nat) :
    (recordsEdge32 (2 * (h : Int)) ++ recordsAgre32 (2 * (h : Int))
        ++ recordsCore32 (2 * (h : Int))).map Record.id
      = (recordsEdge (2 * (h : Int)) ++ recordsAgre (2 * (h : Int))
        ++ recordsCore (2 * (h : Int))).map Record.id := by
  have key : ∀ (l : List Record), (∀ r ∈ l, r.id.kind ≠ Kind.node) →
      (l.map Record.wrap).map Record.id = l.map Record.id := by
    intro l hl
    rw [List.map_map]
    apply List.map_congr_left
    intro r hr
    exact wrap_of_kind _ (hl r hr)
  simp only [List.map_append, recordsEdge32_eq, recordsAgre32_eq, recordsCore32_eq]
  rw [key _ (fun r hr => by rw [kind_edge h r hr]; decide),
    key _ (fun r hr => by rw [kind_aggr h r hr]; decide),
    key _ (fun r hr => by rw [kind_core h r hr]; decide)]

theorem switch_ids_nodup (h : Nat) :
    ((recordsEdge (2 * (h : Int)) ++ recordsAgre (2 * (h : Int))
        ++ recordsCore (2 * (h : Int))).map Record.id).Nodup := by
  have hall := all_ids_nodup h
  simp only [allRecords, List.map_append, List.append_assoc] at hall ⊢
  exact (List.nodup_append.1 hall).2.1

/-- C16 (counterexample). For `k = 2582` there are more than `2^32` hosts: the
host records at positions `0` and `2^32` both have the identity `Node(0)`, so
the identities of the output are not pairwise distinct. -/
theorem C16_distinct_identities_counterexample :
    ((recordsNode32 2582).map Record.id)[0]? = some (Ident.Node 0) ∧
    ((recordsNode32 2582).map Record.id)[4294967296]? = some (Ident.Node 0) ∧
    ¬ ((allRecords32 2582).map Record.id).Nodup := by
  have e2582 : (2582 : Int) = 2 * ((1291 : Nat) : Int) := by norm_num
  have hN : 4294967296 < 2 * 1291 * (1291 * 1291) := by norm_num
  have w0 : wrap32 ((0 : Nat) : Int) = 0 := by decide
  have w1 : wrap32 ((4294967296 : Nat) : Int) = 0 := by decide
  have g0 : ((recordsNode32 2582).map Record.id)[0]? = some (Ident.Node 0) := by
    rw [e2582, node_ids32, List.getElem?_map, List.getElem?_range (by omega),
      Option.map_some', w0]
  have g1 : ((recordsNode32 2582).map Record.id)[4294967296]? = some (Ident.Node 0) := by
    rw [e2582, node_ids32, List.getElem?_map, List.getElem?_range hN, Option.map_some', w1]
  refine ⟨g0, g1, ?_⟩
  intro hnd
  rw [ids32_split] at hnd
  have hnode := hnd.of_append_left
  have hlen : 4294967296 < ((recordsNode32 2582).map Record.id).length := by
    rw [e2582, node_ids32, List.length_map, List.length_range]
    exact hN
  exact List.nodup_iff_getElem?_ne_getElem?.1 hnode 0 4294967296 (by norm_num) hlen
    (g0.trans g1.symm)

/-- C16 (amended). For every even `k ≥ 4`, with `idx` a 32-bit counter: the
identities of the edge, aggregation and core records are pairwise distinct, each
list on its own and all together, and the core enumerator emits `(k/2)^2`
distinct core switches; for `k ≤ 2580` (at most `2^32` hosts) the host
identities are pairwise distinct too, and so are the identities of the whole
output. -/
theorem C16_distinct_identities (k : Int) (h4 : 4 ≤ k) (he : k % 2 = 0) :
    (k ≤ 2580 →
      ((allRecords32 k).map Record.id).Nodup ∧ ((recordsNode32 k).map Record.id).Nodup) ∧
    ((recordsEdge32 k ++ recordsAgre32 k ++ recordsCore32 k).map Record.id).Nodup ∧
    ((recordsEdge32 k).map Record.id).Nodup ∧
    ((recordsAgre32 k).map Record.id).Nodup ∧
    ((recordsCore32 k).map Record.id).Nodup ∧
    ((((recordsCore32 k).map Record.id).toFinset.card : Nat) : Int) = (k / 2) ^ 2 := by
  obtain ⟨h, -, rfl⟩ := even_param k h4 he
  have hdiv : (2 * (h : Int)) / 2 = (h : Int) := by omega
  have hsw : ((recordsEdge32 (2 * (h : Int)) ++ recordsAgre32 (2 * (h : Int))
      ++ recordsCore32 (2 * (h : Int))).map Record.id).Nodup := by
    rw [switch_ids32]
    exact switch_ids_nodup h
  have hsw' := hsw
  simp only [List.map_append] at hsw'
  have hEA := hsw'.of_append_left
  have hC : ((recordsCore32 (2 * (h : Int))).map Record.id).Nodup := hsw'.of_append_right
  refine ⟨?_, hsw, hEA.of_append_left, hEA.of_append_right, hC, ?_⟩
  · intro hk
    have hall := all_ids32_nodup h (by omega)
    refine ⟨hall, ?_⟩
    rw [ids32_split] at hall
    exact hall.of_append_left
  · rw [List.toFinset_card_of_nodup hC, List.length_map, recordsCore32_eq, List.length_map,
      (lengths_even h).2.2.2, hdiv]
    push_cast
    ring

/-- Instance of C16 at `k = 4`. -/
theorem C16_distinct_identities_witness :
    ((4 : Int) ≤ 2580 →
      ((allRecords32 4).map Record.id).Nodup ∧ ((recordsNode32 4).map Record.id).Nodup) ∧
    ((((recordsCore32 4).map Record.id).toFinset.card : Nat) : Int) = ((4 : Int) / 2) ^ 2 :=
  ⟨(C16_distinct_identities 4 (by decide) (by decide)).1,
   (C16_distinct_identities 4 (by decide) (by decide)).2.2.2.2.2⟩

/-! ## Named ports with the 32-bit counter -/

end FatTree
